import Mathlib

/-!
Verification of the Cerebras modelzoo data-preprocessing pipeline
(`data_preprocessor.py`, `utils.py`, `dpo_data_token_generator.py`)
against its natural-language specification.

The Python code is shallowly embedded: Python strings become `List Char`,
numpy 1-D integer arrays become `List Int`, 2-D arrays become
`List (List Int)`, Python `int` becomes `Int` (or `Nat` where the source
value is provably non-negative), and exceptions become `Except`/`Option`
results.  Randomness (numpy draws) is passed in explicitly as oracle
values, so theorems quantify over all possible draw outcomes.
-/

/-! ## Python sequence semantics helpers

Python slicing `l[:k]` with a possibly negative `k`, `l[-P:]`, and slice
assignment `l[:k] = repl` (which can grow or shrink the list) are modelled
exactly. -/

/-- Effective stop index of the Python slice `l[:k]` for a list of length `n`:
negative `k` counts from the end (clamped at 0), non-negative `k` is clamped
at `n`. -/
def pyStop (k : Int) (n : Nat) : Nat :=
  if k < 0 then ((n : Int) + k).toNat else min k.toNat n

/-- Python `l[:k]` (stop may be negative). -/
def pyTakeSlice (k : Int) (l : List α) : List α :=
  l.take (pyStop k l.length)

/-- Python `l[-P:]` for a natural `P`.  Note the Python quirk: `l[-0:]`
is the whole list. -/
def pyLastSlice (P : Nat) (l : List α) : List α :=
  if P = 0 then l else l.drop (l.length - P)

/-- Python slice assignment `l[:k] = repl`: the elements of the slice are
replaced by `repl`, which may change the length of the list. -/
def pyAssignPrefixSlice (k : Int) (repl : List α) (l : List α) : List α :=
  repl ++ l.drop (pyStop k l.length)

/-- Python list repetition `[a] * m` for a possibly negative `m`. -/
def pyReplicate (m : Int) (a : α) : List α :=
  List.replicate m.toNat a

theorem pyStop_le (k : Int) (n : Nat) : pyStop k n ≤ n := by
  unfold pyStop
  split
  · omega
  · omega

theorem length_pyTakeSlice (k : Int) (l : List α) :
    (pyTakeSlice k l).length = pyStop k l.length := by
  simp [pyTakeSlice, Nat.min_eq_left (pyStop_le k l.length)]

theorem length_pyAssignPrefixSlice (k : Int) (repl l : List α) :
    (pyAssignPrefixSlice k repl l).length =
      repl.length + (l.length - pyStop k l.length) := by
  simp [pyAssignPrefixSlice]

theorem length_pyLastSlice (P : Nat) (hP : 0 < P) (l : List α) :
    (pyLastSlice P l).length = min P l.length := by
  unfold pyLastSlice
  split
  · omega
  · simp; omega

/-! ## Claim C3: process topology selection

From `DataPreprocessor.process_processing_params`
(`data_preprocessor.py:578-589`):

    if self.shuffle:
        self.writer_process_num = (self.processes - 1) // 2
    else:
        self.writer_process_num = math.ceil((self.processes - 1) / 10)
    self.tokenize_process_num = self.processes - 1 - self.writer_process_num

and from `DataPreprocessor.process_dataset` (`data_preprocessor.py:1754`):

    if self.processes < 3:
        self.file_split_process_dataset()
    else:
        self.task_split_process_dataset()

`task_split_process_dataset` runs exactly one reader (inline in the parent,
logged as "Reader processes: 1"), `tokenize_process_num` tokenizer
processes and `writer_process_num` writer processes. -/

/-- Number of writer processes, `data_preprocessor.py:578-583`.
`math.ceil((p - 1) / 10)` is ceiling division. -/
def writer_process_num (processes : Nat) (shuffle : Bool) : Nat :=
  if shuffle then (processes - 1) / 2 else (processes - 1 + 9) / 10

/-- Number of tokenizer processes, `data_preprocessor.py:589`. -/
def tokenize_process_num (processes : Nat) (shuffle : Bool) : Nat :=
  processes - 1 - writer_process_num processes shuffle

/-- The two process topologies of the pipeline.  The role-split record
carries (readers, tokenizers, writers). -/
inductive Topology where
  | fileSplit : Topology
  | roleSplit (readers tokenizers writers : Nat) : Topology
deriving DecidableEq, Repr

/-- Topology selection of `process_dataset` (`data_preprocessor.py:1749-1757`)
combined with the process counts used by `task_split_process_dataset`. -/
def process_dataset_topology (processes : Nat) (shuffle : Bool) : Topology :=
  if processes < 3 then .fileSplit
  else .roleSplit 1 (tokenize_process_num processes shuffle)
    (writer_process_num processes shuffle)

/-- Claim C3 (corrected): `process_dataset` selects the file-split topology
exactly when the configured process count is below 3; for 5 processes with
shuffling disabled the role-split topology runs with one reader,
`ceil(4/10) = 1` writer and `5 - 1 - 1 = 3` tokenizer processes (the claim
said 4 tokenizers; the code yields 3). -/
theorem process_dataset_topology_spec :
    (∀ p s, process_dataset_topology p s = Topology.fileSplit ↔ p < 3) ∧
    process_dataset_topology 5 false = Topology.roleSplit 1 3 1 := by
  constructor
  · intro p s
    unfold process_dataset_topology
    split
    · simp_all
    · simp_all
  · decide

/-- Claim C3 counterexample: with 5 processes and shuffling disabled the
role-split topology does not have 4 tokenizer processes (it has 3), so the
claim as stated is false. -/
theorem process_dataset_topology_not_four_tokenizers :
    tokenize_process_num 5 false = 3 ∧
    process_dataset_topology 5 false ≠ Topology.roleSplit 1 4 1 := by
  decide

/-! ## Claim C4: shard writing and row-count checks

`DataPreprocessor.save_buffer_to_hdf5` (`data_preprocessor.py:1799-1831`)
iterates over the fields of the buffer, concatenates each field's list of
arrays along axis 0 and creates one HDF5 dataset per field; the variable
`n_examples` is overwritten on every iteration and finally stored as the
shard attribute, so it ends up as the row count of the *last* field.  No
comparison between fields is performed.

`DataPreprocessor.append_df_to_hdf5` (`data_preprocessor.py:1833-1853`,
step 1) concatenates each field and asserts that every field has the same
leading dimension before any write happens.

A buffer maps a field name to a list of 2-D arrays; a 2-D array is a list
of rows. -/

/-- One tokenized buffer: field name ↦ ordered list of 2-D arrays. -/
abbrev H5Buffer := List (String × List (List (List Int)))

/-- Row count of a field after `np.concatenate(..., axis=0)`. -/
def fieldRows (f : String × List (List (List Int))) : Nat :=
  f.2.flatten.length

/-- Model of `save_buffer_to_hdf5`: returns the datasets written (one per
field, concatenated along axis 0) together with the final `n_examples`
attribute.  Mirrors the source: `n_examples` is reassigned to
`data.shape[0]` on every loop iteration, with no cross-field check. -/
def save_buffer_to_hdf5 (buffer : H5Buffer) :
    List (String × List (List Int)) × Nat :=
  buffer.foldl
    (fun acc f => (acc.1 ++ [(f.1, f.2.flatten)], f.2.flatten.length))
    ([], 0)

/-- One iteration of the step-1 loop of `append_df_to_hdf5`: seed the common
example count from the first field, then assert each later field matches. -/
def appendStep (n : Option Nat) (f : String × List (List (List Int))) :
    Except String (Option Nat) :=
  match n with
  | none => Except.ok (some (fieldRows f))
  | some m =>
      if m = fieldRows f then Except.ok (some m)
      else Except.error "All data_labels must have the same number of examples"

/-- Model of step 1 of `append_df_to_hdf5`: the fold that concatenates each
field and asserts equal example counts before anything is written.  Returns
the common `n_examples` (`none` when the frame has no fields). -/
def append_df_to_hdf5_check (td : H5Buffer) : Except String (Option Nat) :=
  td.foldlM appendStep none

theorem append_check_aux (td : H5Buffer) (m : Nat) :
    td.foldlM appendStep (some m) =
      (if ∀ f ∈ td, fieldRows f = m then Except.ok (some m)
       else Except.error
         "All data_labels must have the same number of examples") := by
  induction td with
  | nil => rfl
  | cons f rest ih =>
      rw [List.foldlM_cons]
      by_cases h : m = fieldRows f
      · rw [show appendStep (some m) f = Except.ok (some m) by
          simp [appendStep, if_pos h]]
        show rest.foldlM appendStep (some m) = _
        rw [ih]
        by_cases hrest : ∀ g ∈ rest, fieldRows g = m
        · rw [if_pos hrest, if_pos]
          intro g hg
          rcases List.mem_cons.mp hg with hg | hg
          · subst hg; omega
          · exact hrest g hg
        · rw [if_neg hrest, if_neg]
          intro hall
          exact hrest fun g hg => hall g (List.mem_cons_of_mem f hg)
      · rw [show appendStep (some m) f =
            Except.error
              "All data_labels must have the same number of examples" by
          simp [appendStep, if_neg h]]
        show Except.error _ = _
        rw [if_neg]
        intro hall
        exact h (hall f (List.mem_cons_self f rest)).symm

theorem getLastD_cons (l : List α) :
    ∀ (x n : α), ((x :: l).getLast?).getD n = (l.getLast?).getD x := by
  induction l with
  | nil => intro x n; rfl
  | cons y ys ih =>
      intro x n
      rw [List.getLast?_cons_cons, ih y n, ih y x]

/-- Claim C4 (corrected): only the shuffle append path checks row counts.
`append_df_to_hdf5` succeeds exactly when every field of the frame has the
same number of rows, and on success the shard's `n_examples` is that common
row count; `save_buffer_to_hdf5` performs no such check — it writes every
field unconditionally and stores as `n_examples` the row count of the last
field written (0 for an empty buffer). -/
theorem shard_row_count_check_spec :
    (∀ td : H5Buffer,
      (∃ n, append_df_to_hdf5_check td = Except.ok n) ↔
        ∀ f ∈ td, ∀ g ∈ td, fieldRows f = fieldRows g) ∧
    (∀ td : H5Buffer, ∀ f ∈ td, ∀ m,
      append_df_to_hdf5_check td = Except.ok (some m) → fieldRows f = m) ∧
    (∀ buffer : H5Buffer,
      (save_buffer_to_hdf5 buffer).1 =
        buffer.map (fun f => (f.1, f.2.flatten)) ∧
      (save_buffer_to_hdf5 buffer).2 =
        ((buffer.map fieldRows).getLast?).getD 0) := by
  refine ⟨?_, ?_, ?_⟩
  · intro td
    cases td with
    | nil =>
        constructor
        · intro _ f hf; simp at hf
        · intro _; exact ⟨none, rfl⟩
    | cons f rest =>
        rw [show append_df_to_hdf5_check (f :: rest) =
            rest.foldlM appendStep (some (fieldRows f)) from rfl,
          append_check_aux]
        by_cases hrest : ∀ g ∈ rest, fieldRows g = fieldRows f
        · rw [if_pos hrest]
          constructor
          · intro _ a ha b hb
            rcases List.mem_cons.mp ha with ha | ha <;>
              rcases List.mem_cons.mp hb with hb | hb
            · rw [ha, hb]
            · rw [ha]; exact (hrest b hb).symm
            · rw [hb]; exact hrest a ha
            · rw [hrest a ha, hrest b hb]
          · intro _; exact ⟨some (fieldRows f), rfl⟩
        · rw [if_neg hrest]
          constructor
          · rintro ⟨n, hn⟩; cases hn
          · intro hall
            exact absurd
              (fun g hg => hall g (List.mem_cons_of_mem f hg) f
                (List.mem_cons_self f rest)) hrest
  · intro td f hf m hok
    cases td with
    | nil => simp at hf
    | cons g rest =>
        rw [show append_df_to_hdf5_check (g :: rest) =
            rest.foldlM appendStep (some (fieldRows g)) from rfl,
          append_check_aux] at hok
        by_cases hrest : ∀ x ∈ rest, fieldRows x = fieldRows g
        · rw [if_pos hrest] at hok
          injection hok with hok
          injection hok with hok
          rcases List.mem_cons.mp hf with hf | hf
          · subst hf; omega
          · rw [hrest f hf]; omega
        · rw [if_neg hrest] at hok; cases hok
  · intro buffer
    have key : ∀ (acc : List (String × List (List Int))) (n : Nat),
        buffer.foldl
          (fun acc f => (acc.1 ++ [(f.1, f.2.flatten)], f.2.flatten.length))
          (acc, n) =
        (acc ++ buffer.map (fun f => (f.1, f.2.flatten)),
          ((buffer.map fieldRows).getLast?).getD n) := by
      induction buffer with
      | nil => intro acc n; simp
      | cons f rest ih =>
          intro acc n
          rw [List.foldl_cons, ih, List.map_cons, List.map_cons,
            getLastD_cons]
          simp [fieldRows]
    have := key [] 0
    unfold save_buffer_to_hdf5
    rw [this]
    simp

/-- Claim C4 counterexample: a buffer with two fields of 2 and 3 rows.
`save_buffer_to_hdf5` happily writes the mismatched shard — both datasets
are created and the `n_examples` attribute is 3, the row count of the last
field — so the claim that a mismatched shard is never written in the
sequential write path is false. -/
theorem save_buffer_writes_mismatched_shard :
    (save_buffer_to_hdf5
        [("a", [[[1], [2]]]), ("b", [[[3], [4], [5]]])]).1 =
      [("a", [[1], [2]]), ("b", [[3], [4], [5]])] ∧
    (save_buffer_to_hdf5
        [("a", [[[1], [2]]]), ("b", [[[3], [4], [5]]])]).2 = 3 ∧
    fieldRows ("a", [[[1], [2]]]) ≠ fieldRows ("b", [[[3], [4], [5]]]) := by
  refine ⟨rfl, rfl, by decide⟩

/-! ## Claim C9: checkpoint write/parse round trip

`DataPreprocessor.update_checkpoint` (`data_preprocessor.py:1928-1937`)
writes one line

    f"{d0}, {d1}, {d2}, {d3}, {d4}"

and `DataPreprocessor.read_checkpoint` (`data_preprocessor.py:935-955`)
parses it back with

    [int(i) for i in file.read().split(", ")]

destructured into a 5-tuple.  Python strings are modelled as `List Char`;
`str(int)` is modelled via `Nat.digits`, and `str.split(sep)` (non-empty
separator, non-overlapping left-to-right occurrences) is modelled by
`pySplit`. -/

/-- Decimal digit character, `'0' + d`. -/
def digitChar (d : Nat) : Char := Char.ofNat (48 + d)

/-- Is this an ASCII decimal digit (what `int(...)` accepts, modulo sign and
whitespace, neither of which `str(int)` emits except the leading minus)? -/
def isDigitChar (c : Char) : Bool := 48 ≤ c.toNat && c.toNat ≤ 57

/-- Python `str(n)` for a natural number: the decimal digits, most
significant first. -/
def natToChars (n : Nat) : List Char :=
  if n = 0 then ['0'] else ((Nat.digits 10 n).reverse).map digitChar

/-- Python `str(n)` for an integer: a leading `'-'` for negatives. -/
def intToChars (n : Int) : List Char :=
  if n < 0 then '-' :: natToChars n.natAbs else natToChars n.toNat

/-- The line written by `update_checkpoint` for a 5-tuple of integers:
the five decimal strings joined by `", "`. -/
def update_checkpoint_line (t : Int × Int × Int × Int × Int) : List Char :=
  intToChars t.1 ++ [',', ' '] ++ intToChars t.2.1 ++ [',', ' '] ++
    intToChars t.2.2.1 ++ [',', ' '] ++ intToChars t.2.2.2.1 ++ [',', ' '] ++
    intToChars t.2.2.2.2

/-- Helper for Python `str.split(sep)` with a non-empty separator: `acc`
holds the characters of the current chunk in reverse. -/
def pySplitAux (sep : List Char) (s : List Char) (acc : List Char) :
    List (List Char) :=
  match s with
  | [] => [acc.reverse]
  | c :: rest =>
      if sep.isPrefixOf (c :: rest) then
        acc.reverse :: pySplitAux sep (rest.drop (sep.length - 1)) []
      else
        pySplitAux sep rest (c :: acc)
termination_by s.length
decreasing_by
  · simp
    have := List.length_drop (sep.length - 1) rest
    omega
  · simp

/-- Python `str.split(sep)` for a non-empty separator: split on every
left-to-right non-overlapping occurrence of `sep`. -/
def pySplit (sep s : List Char) : List (List Char) :=
  pySplitAux sep s []

/-- Positional value of a most-significant-first decimal digit string. -/
def parseDigitsNat (l : List Char) : Nat :=
  l.foldl (fun acc c => 10 * acc + (c.toNat - 48)) 0

/-- Python `int(s)` on the strings produced by `str(int)`: an optional
leading minus followed by decimal digits. -/
def pyInt (s : List Char) : Option Int :=
  match s with
  | [] => none
  | c :: rest =>
      if c = '-' then
        if rest ≠ [] ∧ rest.all isDigitChar then
          some (-(Int.ofNat (parseDigitsNat rest))) else none
      else
        if (c :: rest).all isDigitChar then
          some (Int.ofNat (parseDigitsNat (c :: rest))) else none

/-- The parsing step of `read_checkpoint`: split the single line on `", "`
and convert each piece with `int`, requiring exactly five pieces (the
Python destructuring into five variables). -/
def read_checkpoint_parse (line : List Char) :
    Option (Int × Int × Int × Int × Int) :=
  match pySplit [',', ' '] line with
  | [a, b, c, d, e] =>
      match pyInt a, pyInt b, pyInt c, pyInt d, pyInt e with
      | some a', some b', some c', some d', some e' =>
          some (a', b', c', d', e')
      | _, _, _, _, _ => none
  | _ => none

theorem digitChar_toNat (d : Nat) (hd : d < 10) :
    (digitChar d).toNat = 48 + d := by
  interval_cases d <;> decide

theorem isDigitChar_digitChar (d : Nat) (hd : d < 10) :
    isDigitChar (digitChar d) = true := by
  interval_cases d <;> decide

theorem natToChars_ne_nil (n : Nat) : natToChars n ≠ [] := by
  unfold natToChars
  split
  · simp
  · simp [Nat.digits_ne_nil_iff_ne_zero, *]

theorem natToChars_all_digit (n : Nat) :
    (natToChars n).all isDigitChar = true := by
  unfold natToChars
  split
  · decide
  · simp only [List.all_eq_true, List.mem_map, List.mem_reverse]
    rintro c ⟨d, hd, rfl⟩
    exact isDigitChar_digitChar d
      (Nat.digits_lt_base (by norm_num) hd)

theorem not_digit_comma : isDigitChar ',' = false := by decide

theorem not_digit_minus : isDigitChar '-' = false := by decide

theorem comma_not_mem_natToChars (n : Nat) : ',' ∉ natToChars n := by
  intro hmem
  have hall := natToChars_all_digit n
  rw [List.all_eq_true] at hall
  have := hall _ hmem
  simp [not_digit_comma] at this

theorem comma_not_mem_intToChars (n : Int) : ',' ∉ intToChars n := by
  unfold intToChars
  split
  · intro hmem
    rcases List.mem_cons.mp hmem with h | h
    · cases h
    · exact comma_not_mem_natToChars _ h
  · exact comma_not_mem_natToChars _

theorem parse_foldl (l : List Nat) (hl : ∀ d ∈ l, d < 10) (a : Nat) :
    ((l.reverse.map digitChar).foldl
      (fun acc c => 10 * acc + (c.toNat - 48)) a) =
      a * 10 ^ l.length + Nat.ofDigits 10 l := by
  induction l generalizing a with
  | nil => simp
  | cons d ds ih =>
      have hd : d < 10 := hl d (List.mem_cons_self d ds)
      have hds : ∀ x ∈ ds, x < 10 :=
        fun x hx => hl x (List.mem_cons_of_mem d hx)
      rw [List.reverse_cons, List.map_append, List.foldl_append, ih hds a]
      simp only [List.map_cons, List.map_nil, List.foldl_cons, List.foldl_nil,
        Nat.ofDigits_cons, List.length_cons, digitChar_toNat d hd]
      ring_nf
      omega

theorem parseDigitsNat_natToChars (n : Nat) :
    parseDigitsNat (natToChars n) = n := by
  unfold parseDigitsNat natToChars
  split
  · simp_all
  · rw [parse_foldl _ (fun d hd => Nat.digits_lt_base (by norm_num) hd) 0]
    simp [Nat.ofDigits_digits]

theorem pyInt_intToChars (n : Int) : pyInt (intToChars n) = some n := by
  by_cases hneg : n < 0
  · rw [show intToChars n = '-' :: natToChars n.natAbs by
      simp [intToChars, hneg]]
    rw [show pyInt ('-' :: natToChars n.natAbs) =
        (if natToChars n.natAbs ≠ [] ∧
            (natToChars n.natAbs).all isDigitChar then
          some (-(Int.ofNat (parseDigitsNat (natToChars n.natAbs))))
        else none)
      from rfl]
    rw [if_pos ⟨natToChars_ne_nil _, natToChars_all_digit _⟩,
      parseDigitsNat_natToChars]
    have : -(Int.ofNat n.natAbs) = n := by
      rw [Int.ofNat_eq_natCast]; omega
    rw [this]
  · rw [show intToChars n = natToChars n.toNat by simp [intToChars, hneg]]
    rcases hcons : natToChars n.toNat with _ | ⟨c, rest⟩
    · exact absurd hcons (natToChars_ne_nil _)
    · have hall : (c :: rest).all isDigitChar = true := by
        rw [← hcons]; exact natToChars_all_digit _
      have hc : c ≠ '-' := by
        intro hc
        have := List.all_eq_true.mp hall c (List.mem_cons_self c rest)
        rw [hc, not_digit_minus] at this
        cases this
      rw [show pyInt (c :: rest) =
          (if c = '-' then
            if rest ≠ [] ∧ rest.all isDigitChar then
              some (-(Int.ofNat (parseDigitsNat rest))) else none
          else
            if (c :: rest).all isDigitChar then
              some (Int.ofNat (parseDigitsNat (c :: rest))) else none)
        from rfl]
      rw [if_neg hc, if_pos hall, ← hcons, parseDigitsNat_natToChars]
      have : Int.ofNat n.toNat = n := by
        rw [Int.ofNat_eq_natCast]; omega
      rw [this]

theorem commaSpace_not_isPrefixOf (c : Char) (cs : List Char)
    (hc : c ≠ ',') : ¬ ([',', ' '].isPrefixOf (c :: cs) = true) := by
  simp [List.isPrefixOf_cons₂]
  intro h
  exact absurd h.symm hc

theorem commaSpace_isPrefixOf (l : List Char) :
    [',', ' '].isPrefixOf (',' :: ' ' :: l) = true := by
  simp [List.isPrefixOf_cons₂, List.isPrefixOf]

theorem pySplitAux_no_sep (x : List Char) (hx : ∀ c ∈ x, c ≠ ',') :
    ∀ acc, pySplitAux [',', ' '] x acc = [acc.reverse ++ x] := by
  induction x with
  | nil => intro acc; simp [pySplitAux]
  | cons c cs ih =>
      intro acc
      rw [pySplitAux,
        if_neg (commaSpace_not_isPrefixOf c cs (hx c (List.mem_cons_self c cs))),
        ih (fun d hd => hx d (List.mem_cons_of_mem c hd)) (c :: acc)]
      simp

theorem pySplitAux_sep_append (x : List Char) (hx : ∀ c ∈ x, c ≠ ',')
    (l : List Char) :
    ∀ acc, pySplitAux [',', ' '] (x ++ ',' :: ' ' :: l) acc =
      (acc.reverse ++ x) :: pySplitAux [',', ' '] l [] := by
  induction x with
  | nil =>
      intro acc
      rw [List.nil_append, pySplitAux, if_pos (commaSpace_isPrefixOf l)]
      simp
  | cons c cs ih =>
      intro acc
      rw [List.cons_append, pySplitAux,
        if_neg (commaSpace_not_isPrefixOf c _ (hx c (List.mem_cons_self c cs))),
        ih (fun d hd => hx d (List.mem_cons_of_mem c hd)) (c :: acc)]
      simp

/-- Claim C9 (confirmed): writing any 5-tuple of integers with
`update_checkpoint` and parsing the resulting line the way
`read_checkpoint` does (split on `", "`, convert each piece with `int`)
returns exactly the original 5-tuple. -/
theorem update_read_checkpoint_roundtrip (t : Int × Int × Int × Int × Int) :
    read_checkpoint_parse (update_checkpoint_line t) = some t := by
  obtain ⟨a, b, c, d, e⟩ := t
  have hmem : ∀ n : Int, ∀ ch ∈ intToChars n, ch ≠ ',' :=
    fun n ch hch heq => comma_not_mem_intToChars n (heq ▸ hch)
  have hsplit : pySplit [',', ' '] (update_checkpoint_line (a, b, c, d, e)) =
      [intToChars a, intToChars b, intToChars c, intToChars d,
        intToChars e] := by
    unfold pySplit update_checkpoint_line
    simp only [List.append_assoc, List.cons_append, List.nil_append]
    rw [pySplitAux_sep_append _ (hmem a) _ [],
      pySplitAux_sep_append _ (hmem b) _ [],
      pySplitAux_sep_append _ (hmem c) _ [],
      pySplitAux_sep_append _ (hmem d) _ [],
      pySplitAux_no_sep _ (hmem e) []]
    simp
  unfold read_checkpoint_parse
  rw [hsplit]
  simp only [pyInt_intToChars]

/-! ## DPOTokenGenerator (`dpo_data_token_generator.py`)

The tokenizer is abstracted as a pure function `tok : List Char → List Int`
(the `encode`-method branch of `tokenize_text`, which sets the attention
mask to all ones and the labels to the ids).  The configuration models the
constructor defaults: `use_ftfy = False`, `wikitext_detokenize = False`,
`can_apply_chat_template = False` (so the manual `format_chat` fallback
renders the chat), `user_role = "user"`, `assistant_role = "assistant"`,
and the `truncation_mode = "keep_end"` hard-coded inside `encode`.
Documents are the plain-string case
`(prompt : Option str, chosen : str, rejected : str)`; for a non-empty
`chosen` string, Python's `all(isinstance(item, dict) for item in chosen)`
iterates over the characters of the string and is false, so string
documents always take the `apply_chat_template(prompt, chosen, rejected)`
branch, whose manual fallback renders
`"[INST] " + prompt + " [/INST] " + content`.  `np.stack` raising on
mismatched array shapes is modelled as the `stackShapeMismatch` error. -/

structure DPOConfig where
  max_seq_length : Nat
  max_prompt_length : Nat
  eos_id : Int
  pad_id : Int
  bos_token_id : Int
  add_bos_token : Bool
  response_delimiter : Option (List Char)
deriving Repr, DecidableEq

/-- The `data_stats` dictionary initialised at the top of `encode`
(`dpo_data_token_generator.py:270-282`). -/
structure DPOStats where
  discarded : Nat
  processed : Nat
  successful : Nat
  raw_chars_count : Nat
  raw_bytes_count : Nat
  num_pad_tokens : Int
  num_masked_tokens : Int
  loss_valid_tokens : Int
  num_tokens : Nat
  normalized_chars_count : Nat
  normalized_bytes_count : Nat
deriving Repr, DecidableEq

/-- Initial stats: `processed = 1`, everything else 0. -/
def initDPOStats : DPOStats :=
  ⟨0, 1, 0, 0, 0, 0, 0, 0, 0, 0, 0⟩

/-- The distinguishable `ValueError`s raised by `encode` (and the
`ValueError` `np.stack` raises on mismatched shapes). -/
inductive DPOError where
  | concatLenMismatch
  | promptMaskLenMismatch
  | promptDiff
  | stackShapeMismatch
deriving Repr, DecidableEq

/-- The four lists produced by `build_tokenized_answer`. -/
structure TokenizedAnswer where
  prompt_input_ids : List Int
  prompt_attention_mask : List Int
  input_ids : List Int
  attention_mask : List Int
deriving Repr, DecidableEq

/-- Python `hay.rfind(needle)`: highest index at which `needle` occurs in
`hay`, or `-1` when it does not occur. -/
def pyRfind (hay needle : List Char) : Int :=
  match ((List.range (hay.length + 1)).filter
      (fun i => needle.isPrefixOf (hay.drop i))).getLast? with
  | some i => (i : Int)
  | none => -1

/-- ASCII lowering, modelling Python `str.lower()` on the ASCII inputs the
role markers use. -/
def asciiLower (c : Char) : Char :=
  if 'A' ≤ c ∧ c ≤ 'Z' then Char.ofNat (c.toNat + 32) else c

/-- UTF-8 byte length of a string, Python `len(s.encode("utf-8"))`. -/
def byteLen (s : List Char) : Nat :=
  (s.map Char.utf8Size).sum

/-- The manual `format_chat` fallback applied to
`[user prompt, assistant content]`:
`"[INST] " + prompt + " [/INST] " + content`. -/
def formatChatUA (prompt content : List Char) : List Char :=
  ("[INST] ").data ++ prompt ++ (" [/INST] ").data ++ content

/-- `tokenize_text` (non-callable tokenizer branch): ids plus an all-ones
attention mask. -/
def tokenize_text (tok : List Char → List Int) (text : List Char) :
    List Int × List Int :=
  (tok text, List.replicate (tok text).length 1)

/-- `build_tokenized_answer` (`dpo_data_token_generator.py:155-242`):
split the full tokenization into prompt and answer parts, adjusting the
boundary back by one token when the tokenizer merged the boundary. -/
def build_tokenized_answer (tok : List Char → List Int)
    (prompt prompt_response : List Char) : Except DPOError TokenizedAnswer :=
  let full_input_ids := tok prompt_response
  let full_attention_mask : List Int := List.replicate full_input_ids.length 1
  let prompt_input_ids := tok prompt
  let answer_input_ids := full_input_ids.drop prompt_input_ids.length
  let full_concat_input_ids := prompt_input_ids ++ answer_input_ids
  if full_input_ids.length ≠ full_concat_input_ids.length then
    Except.error .concatLenMismatch
  else
    let start0 := prompt_input_ids.length
    let start :=
      if prompt_input_ids ≠ full_input_ids.take start0 then start0 - 1
      else start0
    let p_ids := full_input_ids.take start
    let p_mask := full_attention_mask.take start
    if p_ids.length ≠ p_mask.length then Except.error .promptMaskLenMismatch
    else
      Except.ok ⟨p_ids, p_mask, full_input_ids.drop start,
        full_attention_mask.drop start⟩

/-- `sum(a != b for a, b in zip(xs, ys))`
(`dpo_data_token_generator.py:475-483`). -/
def num_diff_tokens (xs ys : List Int) : Nat :=
  (xs.zip ys).countP (fun p => p.1 != p.2)

/-- Outcome of the front part of `encode` (empty-field check, prompt
derivation, chat formatting, delimiter search): either an early discard
(return `[], data_stats`) or the pair of rendered strings plus the
extracted prompt. -/
inductive DPOPrep where
  | discard (stats : DPOStats)
  | proceed (prompt_chosen prompt_rejected prompt : List Char)
      (stats : DPOStats)
deriving Repr, DecidableEq

/-- Front part of `encode` (`dpo_data_token_generator.py:254-451`). -/
def dpoPrep (cfg : DPOConfig)
    (doc : Option (List Char) × List Char × List Char) : DPOPrep :=
  let (prompt0, chosen, rejected) := doc
  if chosen = [] ∨ rejected = [] then
    .discard { initDPOStats with discarded := 1 }
  else
    let promptDerived : Option (List Char) :=
      match prompt0 with
      | some p => some p
      | none =>
          let idx := pyRfind (chosen.map asciiLower)
            (("assistant").data ++ [':'])
          if idx = -1 then none
          else some (chosen.take (idx.toNat + ("assistant").data.length + 1))
    match promptDerived with
    | none => .discard { initDPOStats with discarded := 1 }
    | some prompt1 =>
        let prompt_chosen := formatChatUA prompt1 chosen
        let prompt_rejected := formatChatUA prompt1 rejected
        let stats1 := { initDPOStats with
          raw_chars_count := prompt_chosen.length + prompt_rejected.length,
          raw_bytes_count := byteLen prompt_chosen + byteLen prompt_rejected,
          normalized_chars_count :=
            prompt_chosen.length + prompt_rejected.length,
          normalized_bytes_count :=
            byteLen prompt_chosen + byteLen prompt_rejected }
        let last_assistant_index :=
          match cfg.response_delimiter with
          | some d => pyRfind prompt_chosen d
          | none =>
              max (pyRfind prompt_chosen ("[/INST]").data)
                (pyRfind prompt_chosen ("<|assistant|>").data)
        if last_assistant_index = -1 then
          .discard { stats1 with discarded := 1 }
        else
          .proceed prompt_chosen prompt_rejected
            (prompt_chosen.take last_assistant_index.toNat) stats1

/-- Middle part of `encode` (`dpo_data_token_generator.py:450-491`):
tokenize the prompt, build both tokenized answers, trim the standalone
prompt tokens to the shorter prompt, and enforce the
at-most-one-token-difference invariant. -/
def dpoTokenizePhase (tok : List Char → List Int)
    (prompt prompt_chosen prompt_rejected : List Char) :
    Except DPOError (TokenizedAnswer × TokenizedAnswer ×
      (List Int × List Int)) :=
  let pt := tokenize_text tok prompt
  match build_tokenized_answer tok prompt prompt_chosen with
  | .error e => .error e
  | .ok chosen_tokens =>
      match build_tokenized_answer tok prompt prompt_rejected with
      | .error e => .error e
      | .ok rejected_tokens =>
          let prompt_len_input_ids :=
            min chosen_tokens.prompt_input_ids.length
              rejected_tokens.prompt_input_ids.length
          let pt' := (pt.1.take prompt_len_input_ids,
            pt.2.take prompt_len_input_ids)
          let ndiff := num_diff_tokens chosen_tokens.prompt_input_ids
            rejected_tokens.prompt_input_ids
          let nlendiff := ((chosen_tokens.prompt_input_ids.length : Int) -
            (rejected_tokens.prompt_input_ids.length : Int)).natAbs
          if 1 < ndiff ∨ 1 < nlendiff then .error .promptDiff
          else .ok (chosen_tokens, rejected_tokens, pt')

/-- BOS insertion (`dpo_data_token_generator.py:493-513`): when the
tokenizer does not itself add a BOS token, prepend it to the prompt ids and
a 1 to the prompt attention mask. -/
def addBosTokens (cfg : DPOConfig) (t : TokenizedAnswer) : TokenizedAnswer :=
  if cfg.add_bos_token then t
  else
    { t with
      prompt_input_ids := cfg.bos_token_id :: t.prompt_input_ids,
      prompt_attention_mask := 1 :: t.prompt_attention_mask }

/-- EOS appending (`dpo_data_token_generator.py:515-518`): the EOS id is
appended to the answer `input_ids` only (not to the attention mask). -/
def addEosToken (cfg : DPOConfig) (t : TokenizedAnswer) : TokenizedAnswer :=
  { t with input_ids := t.input_ids ++ [cfg.eos_id] }

/-- Prompt truncation (`dpo_data_token_generator.py:526-544`,
`truncation_mode = "keep_end"`): when the prompt plus the longer response
exceeds `max_seq_length`, keep the last `max_prompt_length` prompt tokens. -/
def truncPromptKeepEnd (cfg : DPOConfig) (longer : Nat)
    (t : TokenizedAnswer) : TokenizedAnswer :=
  if cfg.max_seq_length < t.prompt_input_ids.length + longer then
    { t with
      prompt_input_ids := pyLastSlice cfg.max_prompt_length t.prompt_input_ids,
      prompt_attention_mask :=
        pyLastSlice cfg.max_prompt_length t.prompt_attention_mask }
  else t

/-- Response truncation (`dpo_data_token_generator.py:546-555`): when the
(possibly already truncated) prompt plus the longer response still exceeds
`max_seq_length`, cut the response to
`max_seq_length - max_prompt_length` tokens (a Python slice whose stop may
be negative). -/
def truncResponse (cfg : DPOConfig) (longer : Nat)
    (t : TokenizedAnswer) : TokenizedAnswer :=
  if cfg.max_seq_length < t.prompt_input_ids.length + longer then
    { t with
      input_ids := pyTakeSlice
        ((cfg.max_seq_length : Int) - (cfg.max_prompt_length : Int))
        t.input_ids,
      attention_mask := pyTakeSlice
        ((cfg.max_seq_length : Int) - (cfg.max_prompt_length : Int))
        t.attention_mask }
  else t

/-- Padding of one list to `max_seq_length`
(`dpo_data_token_generator.py:595-600`): `padded = [v] * L` followed by the
slice assignment `padded[:len(tokens)] = tokens` — which leaves `tokens`
unchanged when it is longer than `L`. -/
def padToMaxSeqLength (L : Nat) (v : Int) (tokens : List Int) : List Int :=
  tokens ++ List.replicate (L - tokens.length) v

/-- Both truncation passes applied to one tokenized answer
(`dpo_data_token_generator.py:526-555`). -/
def truncBoth (cfg : DPOConfig) (longer : Nat) (t : TokenizedAnswer) :
    TokenizedAnswer :=
  truncResponse cfg longer (truncPromptKeepEnd cfg longer t)

/-- `chosen_sequence_tokens["input_ids"]` / rejected analogue: prompt ids
followed by answer ids (`dpo_data_token_generator.py:557-565`). -/
def dpoSeqIds (t : TokenizedAnswer) : List Int :=
  t.prompt_input_ids ++ t.input_ids

/-- `chosen_sequence_tokens["attention_mask"]` / rejected analogue. -/
def dpoSeqMask (t : TokenizedAnswer) : List Int :=
  t.prompt_attention_mask ++ t.attention_mask

/-- Labels (`dpo_data_token_generator.py:566-577`): the ids shifted by one,
with the first `len(prompt) - 1` positions overwritten by the pad id via a
Python slice assignment. -/
def dpoLabels (cfg : DPOConfig) (t : TokenizedAnswer) : List Int :=
  pyAssignPrefixSlice ((t.prompt_input_ids.length : Int) - 1)
    (pyReplicate ((t.prompt_input_ids.length : Int) - 1) cfg.pad_id)
    ((dpoSeqIds t).drop 1)

/-- The padded attention mask with the prompt region (minus one, for the
shift) zeroed afterwards (`dpo_data_token_generator.py:595-612`). -/
def dpoPaddedMask (cfg : DPOConfig) (t : TokenizedAnswer) : List Int :=
  pyAssignPrefixSlice ((t.prompt_input_ids.length : Int) - 1)
    (pyReplicate ((t.prompt_input_ids.length : Int) - 1) 0)
    (padToMaxSeqLength cfg.max_seq_length 0 (dpoSeqMask t))

/-- The six stacked lists, in the dict order of the source:
chosen input ids, attention mask, labels, then the rejected triple. -/
def dpoBatchOf (cfg : DPOConfig) (ct rt : TokenizedAnswer) :
    List (List Int) :=
  [padToMaxSeqLength cfg.max_seq_length cfg.pad_id (dpoSeqIds ct),
    dpoPaddedMask cfg ct,
    padToMaxSeqLength cfg.max_seq_length cfg.pad_id (dpoLabels cfg ct),
    padToMaxSeqLength cfg.max_seq_length cfg.pad_id (dpoSeqIds rt),
    dpoPaddedMask cfg rt,
    padToMaxSeqLength cfg.max_seq_length cfg.pad_id (dpoLabels cfg rt)]

/-- The statistics update of a successful `encode`
(`dpo_data_token_generator.py:580-639`). -/
def dpoStatsUpdate (cfg : DPOConfig) (ct rt : TokenizedAnswer)
    (s : DPOStats) : DPOStats :=
  let L := cfg.max_seq_length
  let total_pad_tokens : Int :=
    ((L : Int) - (dpoSeqIds ct).length) + ((L : Int) - (dpoSeqMask ct).length)
    + ((L : Int) - (dpoLabels cfg ct).length)
    + ((L : Int) - (dpoSeqIds rt).length)
    + ((L : Int) - (dpoSeqMask rt).length)
    + ((L : Int) - (dpoLabels cfg rt).length)
  let loss_valid : Int :=
    ((dpoPaddedMask cfg ct).length : Int) -
      ((ct.prompt_input_ids.length : Int) - 1) +
    ((dpoPaddedMask cfg rt).length : Int) -
      ((rt.prompt_input_ids.length : Int) - 1)
  { s with
    successful := 1,
    num_pad_tokens := total_pad_tokens,
    num_masked_tokens := 2 * (L : Int) - loss_valid,
    loss_valid_tokens := loss_valid,
    num_tokens := 6 * L }

/-- Back part of `encode` (`dpo_data_token_generator.py:493-641`): BOS/EOS
insertion, truncation, label creation, padding, prompt-region mask zeroing,
statistics, and the final `np.stack` (which raises when the six lists do
not all have the same length).  The source also runs the prompt-truncation
loop over the standalone `prompt_tokens`, which are never used afterwards
and are therefore dropped here. -/
def dpoFinalize (cfg : DPOConfig)
    (chosen_tokens rejected_tokens : TokenizedAnswer)
    (stats : DPOStats) : Except DPOError (List (List Int) × DPOStats) :=
  let ctA := addEosToken cfg (addBosTokens cfg chosen_tokens)
  let rtA := addEosToken cfg (addBosTokens cfg rejected_tokens)
  let longer_response_length := max ctA.input_ids.length rtA.input_ids.length
  let ct := truncBoth cfg longer_response_length ctA
  let rt := truncBoth cfg longer_response_length rtA
  if (dpoBatchOf cfg ct rt).all
      (fun l => l.length =
        (padToMaxSeqLength cfg.max_seq_length cfg.pad_id
          (dpoSeqIds ct)).length) then
    Except.ok (dpoBatchOf cfg ct rt, dpoStatsUpdate cfg ct rt stats)
  else Except.error .stackShapeMismatch

/-- `DPOTokenGenerator.encode` (`dpo_data_token_generator.py:244-641`) for
plain-string documents: `.ok (none, stats)` is the discard return
`([], data_stats)`, `.ok (some batch, stats)` is a successful sample (the
`(1, 6, max_seq_length)` stack), and `.error` is a raised `ValueError`. -/
def DPOTokenGenerator.encode (cfg : DPOConfig) (tok : List Char → List Int)
    (doc : Option (List Char) × List Char × List Char) :
    Except DPOError (Option (List (List Int)) × DPOStats) :=
  match dpoPrep cfg doc with
  | .discard s => .ok (none, s)
  | .proceed prompt_chosen prompt_rejected prompt s =>
      match dpoTokenizePhase tok prompt prompt_chosen prompt_rejected with
      | .error e => .error e
      | .ok (chosen_tokens, rejected_tokens, _pt) =>
          match dpoFinalize cfg chosen_tokens rejected_tokens s with
          | .error e => .error e
          | .ok (batch, s') => .ok (some batch, s')

/-- Claim C8 (confirmed): a document whose `chosen` field is the empty
string is discarded — `encode` returns the empty sample list together with
`data_stats` having `discarded = 1` and `processed = 1`, and raises no
exception. -/
theorem encode_empty_chosen_discards (cfg : DPOConfig)
    (tok : List Char → List Int) (p : Option (List Char)) (r : List Char) :
    DPOTokenGenerator.encode cfg tok (p, [], r) =
      Except.ok (none, { initDPOStats with discarded := 1 }) ∧
    ({ initDPOStats with discarded := 1 } : DPOStats).discarded = 1 ∧
    ({ initDPOStats with discarded := 1 } : DPOStats).processed = 1 := by
  refine ⟨?_, rfl, rfl⟩
  rfl

theorem dpoFinalize_error_is_stack (cfg : DPOConfig)
    (a b : TokenizedAnswer) (s : DPOStats) (e : DPOError)
    (h : dpoFinalize cfg a b s = Except.error e) :
    e = DPOError.stackShapeMismatch := by
  unfold dpoFinalize at h
  simp only [] at h
  split at h
  · cases h
  · injection h with h
    exact h.symm

/-- Claim C5 (confirmed): once `encode` reaches the prompt-comparison, i.e.
the front part did not discard and both `build_tokenized_answer` calls
succeeded, it raises the `ValueError` about chosen/rejected prompt ids
exactly when the two prompt token sequences differ in more than one
(zipped) position or their lengths differ by more than one; in every other
case that error is not raised. -/
theorem encode_prompt_diff_iff (cfg : DPOConfig) (tok : List Char → List Int)
    (doc : Option (List Char) × List Char × List Char)
    (pc pr prompt : List Char) (s : DPOStats)
    (hprep : dpoPrep cfg doc = DPOPrep.proceed pc pr prompt s)
    (ct rt : TokenizedAnswer)
    (hct : build_tokenized_answer tok prompt pc = Except.ok ct)
    (hrt : build_tokenized_answer tok prompt pr = Except.ok rt) :
    DPOTokenGenerator.encode cfg tok doc = Except.error DPOError.promptDiff ↔
      (1 < num_diff_tokens ct.prompt_input_ids rt.prompt_input_ids ∨
        1 < ((ct.prompt_input_ids.length : Int) -
          (rt.prompt_input_ids.length : Int)).natAbs) := by
  have hphase : dpoTokenizePhase tok prompt pc pr =
      (if 1 < num_diff_tokens ct.prompt_input_ids rt.prompt_input_ids ∨
          1 < ((ct.prompt_input_ids.length : Int) -
            (rt.prompt_input_ids.length : Int)).natAbs
       then Except.error DPOError.promptDiff
       else Except.ok (ct, rt,
        ((tok prompt).take (min ct.prompt_input_ids.length
            rt.prompt_input_ids.length),
          (List.replicate (tok prompt).length (1 : Int)).take
            (min ct.prompt_input_ids.length
              rt.prompt_input_ids.length)))) := by
    unfold dpoTokenizePhase
    rw [hct, hrt]
    rfl
  have henc : DPOTokenGenerator.encode cfg tok doc =
      (match dpoTokenizePhase tok prompt pc pr with
       | .error e => .error e
       | .ok (a, b, _) =>
           match dpoFinalize cfg a b s with
           | .error e => .error e
           | .ok (batch, s') => .ok (some batch, s')) := by
    unfold DPOTokenGenerator.encode
    rw [hprep]
  rw [henc, hphase]
  by_cases hcond : (1 < num_diff_tokens ct.prompt_input_ids
      rt.prompt_input_ids ∨
    1 < ((ct.prompt_input_ids.length : Int) -
      (rt.prompt_input_ids.length : Int)).natAbs)
  · rw [if_pos hcond]
    simp [hcond]
  · rw [if_neg hcond]
    simp only [iff_false_intro hcond, iff_false]
    cases hfin : dpoFinalize cfg ct rt s with
    | error e =>
        simp only [hfin]
        intro hcontra
        injection hcontra with hcontra
        have := dpoFinalize_error_is_stack cfg ct rt s e hfin
        rw [this] at hcontra
        cases hcontra
    | ok p =>
        simp [hfin]


theorem padToMaxSeqLength_length_of_le (L : Nat) (v : Int)
    (tokens : List Int) (h : tokens.length ≤ L) :
    (padToMaxSeqLength L v tokens).length = L := by
  simp [padToMaxSeqLength]
  omega

theorem trunc_sum_le (cfg : DPOConfig) (h1 : 1 ≤ cfg.max_prompt_length)
    (h2 : cfg.max_prompt_length ≤ cfg.max_seq_length) (longer : Nat)
    (t : TokenizedAnswer) (hal : t.input_ids.length ≤ longer) :
    (truncBoth cfg longer t).prompt_input_ids.length +
      (truncBoth cfg longer t).input_ids.length ≤ cfg.max_seq_length := by
  have ha1 : (pyLastSlice cfg.max_prompt_length t.prompt_input_ids).length =
      min cfg.max_prompt_length t.prompt_input_ids.length :=
    length_pyLastSlice cfg.max_prompt_length h1 t.prompt_input_ids
  have hstop : pyStop ((cfg.max_seq_length : Int) -
      (cfg.max_prompt_length : Int)) t.input_ids.length ≤
      cfg.max_seq_length - cfg.max_prompt_length := by
    unfold pyStop
    split
    · omega
    · have : ((cfg.max_seq_length : Int) -
          (cfg.max_prompt_length : Int)).toNat =
          cfg.max_seq_length - cfg.max_prompt_length := by omega
      omega
  unfold truncBoth truncPromptKeepEnd
  by_cases c1 : cfg.max_seq_length < t.prompt_input_ids.length + longer
  · rw [if_pos c1]
    unfold truncResponse
    by_cases c2 : cfg.max_seq_length <
        (pyLastSlice cfg.max_prompt_length t.prompt_input_ids).length + longer
    · rw [if_pos c2]
      simp only
      rw [length_pyTakeSlice]
      omega
    · rw [if_neg c2]
      simp only
      omega
  · rw [if_neg c1]
    unfold truncResponse
    by_cases c2 : cfg.max_seq_length < t.prompt_input_ids.length + longer
    · omega
    · rw [if_neg c2]
      omega

theorem dpoFinalize_ok_lengths (cfg : DPOConfig)
    (h1 : 1 ≤ cfg.max_prompt_length)
    (h2 : cfg.max_prompt_length ≤ cfg.max_seq_length)
    (ct0 rt0 : TokenizedAnswer) (s : DPOStats)
    (batch : List (List Int)) (s0 : DPOStats)
    (hfin : dpoFinalize cfg ct0 rt0 s = Except.ok (batch, s0)) :
    batch.length = 6 ∧ ∀ l ∈ batch, l.length = cfg.max_seq_length := by
  unfold dpoFinalize at hfin
  simp only [] at hfin
  split at hfin
  case isTrue hall =>
    injection hfin with hfin
    injection hfin with hb hs
    subst hb
    refine ⟨rfl, ?_⟩
    have hsum := trunc_sum_le cfg h1 h2
      (max (addEosToken cfg (addBosTokens cfg ct0)).input_ids.length
        (addEosToken cfg (addBosTokens cfg rt0)).input_ids.length)
      (addEosToken cfg (addBosTokens cfg ct0)) (le_max_left _ _)
    have hfirst : (padToMaxSeqLength cfg.max_seq_length cfg.pad_id
        (dpoSeqIds (truncBoth cfg
          (max (addEosToken cfg (addBosTokens cfg ct0)).input_ids.length
            (addEosToken cfg (addBosTokens cfg rt0)).input_ids.length)
          (addEosToken cfg (addBosTokens cfg ct0))))).length =
        cfg.max_seq_length := by
      apply padToMaxSeqLength_length_of_le
      rw [dpoSeqIds, List.length_append]
      exact hsum
    intro l hl
    rw [List.all_eq_true] at hall
    have hlen := hall l hl
    rw [decide_eq_true_iff] at hlen
    rw [hlen, hfirst]
  case isFalse => cases hfin

/-- Claim C6 (confirmed): for every document that `encode` neither discards
nor rejects (it returns a sample), the sample consists of exactly six
arrays — chosen/rejected input ids, attention mask, labels — each of
length exactly `max_seq_length` (the `(1, 6, max_seq_length)` stack),
provided the configured prompt budget is sane
(`1 ≤ max_prompt_length ≤ max_seq_length`). -/
theorem encode_six_arrays (cfg : DPOConfig) (tok : List Char → List Int)
    (doc : Option (List Char) × List Char × List Char)
    (h1 : 1 ≤ cfg.max_prompt_length)
    (h2 : cfg.max_prompt_length ≤ cfg.max_seq_length)
    (batch : List (List Int)) (s' : DPOStats)
    (hok : DPOTokenGenerator.encode cfg tok doc =
      Except.ok (some batch, s')) :
    batch.length = 6 ∧ ∀ l ∈ batch, l.length = cfg.max_seq_length := by
  rcases hp : dpoPrep cfg doc with hs | ⟨pc, pr, prompt, s⟩
  · have hok2 : (Except.ok (none, hs) :
        Except DPOError (Option (List (List Int)) × DPOStats)) =
        Except.ok (some batch, s') := by
      rw [← hok]
      unfold DPOTokenGenerator.encode
      rw [hp]
    injection hok2 with hok2
    injection hok2 with hA hB
    cases hA
  · have hok2 : (match dpoTokenizePhase tok prompt pc pr with
        | Except.error e =>
            (Except.error e :
              Except DPOError (Option (List (List Int)) × DPOStats))
        | Except.ok (a, b, _) =>
            match dpoFinalize cfg a b s with
            | Except.error e => Except.error e
            | Except.ok (batch0, s0) => Except.ok (some batch0, s0)) =
        Except.ok (some batch, s') := by
      rw [← hok]
      unfold DPOTokenGenerator.encode
      rw [hp]
    rcases hph : dpoTokenizePhase tok prompt pc pr with e | ⟨ct, rt, pt⟩ <;>
      rw [hph] at hok2
    · exact Except.noConfusion
        (show (Except.error e :
            Except DPOError (Option (List (List Int)) × DPOStats)) =
          Except.ok (some batch, s') from hok2)
    · have hok3 : (match dpoFinalize cfg ct rt s with
          | Except.error e =>
              (Except.error e :
                Except DPOError (Option (List (List Int)) × DPOStats))
          | Except.ok (batch0, s0) => Except.ok (some batch0, s0)) =
          Except.ok (some batch, s') := hok2
      rcases hfin : dpoFinalize cfg ct rt s with e | ⟨batch0, s0⟩ <;>
        rw [hfin] at hok3
      · exact Except.noConfusion
          (show (Except.error e :
              Except DPOError (Option (List (List Int)) × DPOStats)) =
            Except.ok (some batch, s') from hok3)
      · have hok4 : (Except.ok (some batch0, s0) :
            Except DPOError (Option (List (List Int)) × DPOStats)) =
            Except.ok (some batch, s') := hok3
        injection hok4 with hok4
        injection hok4 with hA hB
        injection hA with hA
        subst hA
        exact dpoFinalize_ok_lengths cfg h1 h2 ct rt s batch0 s0 hfin

/-! Concrete witness data for the DPO claims.  The tokenizer
`dpoTokWDiff` makes the two prompt tokenizations differ in two positions
after the boundary adjustment of `build_tokenized_answer`; `dpoTokWOne`
maps every string to the single token `[1]` and yields a successful
sample. -/

def dpoCfgW : DPOConfig :=
  { max_seq_length := 8, max_prompt_length := 4, eos_id := 0, pad_id := 0,
    bos_token_id := 0, add_bos_token := false, response_delimiter := none }

def dpoDocW : Option (List Char) × List Char × List Char :=
  (some ("q").data, ("c").data, ("r").data)

def dpoTokWDiff : List Char → List Int := fun s =>
  if s = ("[INST] q [/INST] c").data then [5, 6, 7]
  else if s = ("[INST] q [/INST] r").data then [8, 9, 7]
  else if s = ("[INST] q ").data then [1, 2, 3]
  else []

def dpoTokWOne : List Char → List Int := fun _ => [1]

def dpoStatsW : DPOStats :=
  { initDPOStats with
    raw_chars_count := 36
    raw_bytes_count := 36
    normalized_chars_count := 36
    normalized_bytes_count := 36 }

def dpoCtW : TokenizedAnswer := ⟨[5, 6], [1, 1], [7], [1]⟩

def dpoRtW : TokenizedAnswer := ⟨[8, 9], [1, 1], [7], [1]⟩

/-- Witness for claim C5: at this concrete config, tokenizer and document
the two prompt tokenizations differ in two positions, and `encode` indeed
raises the prompt-difference `ValueError`. -/
theorem encode_prompt_diff_iff_witness :
    DPOTokenGenerator.encode dpoCfgW dpoTokWDiff dpoDocW =
      Except.error DPOError.promptDiff :=
  (encode_prompt_diff_iff dpoCfgW dpoTokWDiff dpoDocW
    (("[INST] q [/INST] c").data) (("[INST] q [/INST] r").data)
    (("[INST] q ").data) dpoStatsW (by decide) dpoCtW dpoRtW
    (by rfl) (by rfl)).mpr (by decide)

def dpoBatchW : List (List Int) :=
  [[0, 1, 0, 0, 0, 0, 0, 0], [0, 1, 0, 0, 0, 0, 0, 0],
   [0, 0, 0, 0, 0, 0, 0, 0], [0, 1, 0, 0, 0, 0, 0, 0],
   [0, 1, 0, 0, 0, 0, 0, 0], [0, 0, 0, 0, 0, 0, 0, 0]]

def dpoStatsOkW : DPOStats :=
  { discarded := 0
    processed := 1
    successful := 1
    raw_chars_count := 36
    raw_bytes_count := 36
    num_pad_tokens := 34
    num_masked_tokens := 2
    loss_valid_tokens := 14
    num_tokens := 48
    normalized_chars_count := 36
    normalized_bytes_count := 36 }

/-- Witness for claim C6: a concrete successful document, whose sample is
six arrays of length `max_seq_length = 8`. -/
theorem encode_six_arrays_witness :
    1 ≤ dpoCfgW.max_prompt_length ∧
    dpoCfgW.max_prompt_length ≤ dpoCfgW.max_seq_length ∧
    DPOTokenGenerator.encode dpoCfgW dpoTokWOne dpoDocW =
      Except.ok (some dpoBatchW, dpoStatsOkW) ∧
    (dpoBatchW.length = 6 ∧
      ∀ l ∈ dpoBatchW, l.length = dpoCfgW.max_seq_length) :=
  ⟨by decide, by decide, by rfl,
    encode_six_arrays dpoCfgW dpoTokWOne dpoDocW (by decide) (by decide)
      dpoBatchW dpoStatsOkW (by rfl)⟩

/-! ## Fill-in-the-middle (`utils.py`)

`fim` (`utils.py:839-974`) splits the sample at end-of-sequence positions,
runs `chunk` on each sub-document, reconciles the total token count against
the original length via `truncate_or_pad_helper`, formats everything with
`format_fim`, and finally asserts the output shapes and the trailing EOS.

Randomness is supplied as explicit oracles: `chunk` draws one Bernoulli
(`fim_rate`), two `randint(0, len+1)` boundaries, and one Bernoulli
(`spm_rate`); one `FimOracle` holds the outcome of those draws for one
sub-document, and `fim` consumes a stream `Nat → FimOracle`, one oracle per
`chunk` call, so theorems quantify over every possible draw.  The
tokenizer's `encode`/`decode` are abstract functions.  The unused mask row
of `sample_array` is omitted: `fim` reads only row 0.

A segment group is Python's `[prefix, middle, suffix]` list, with the
padding array optionally appended as a 4th element by `pad_helper`;
`truncate_helper`'s `remove_idxs` pointers index prefix/middle/suffix as
0/1/2. -/

/-- A `[prefix, middle, suffix]` group (`pad` is the optional 4th element
appended by `pad_helper`, empty until then). -/
structure FimSegs where
  pre : List Int
  mid : List Int
  suf : List Int
  pad : List Int
deriving Repr, DecidableEq

instance : Inhabited FimSegs := ⟨⟨[], [], [], []⟩⟩

/-- The three sequence formats of `chunk`. -/
inductive FimFormat where
  | PSM
  | SPM
  | AR
deriving Repr, DecidableEq

/-- Outcomes of the random draws made by one `chunk` call. -/
structure FimOracle where
  doFim : Bool
  r1 : Nat
  r2 : Nat
  doSpm : Bool

/-- Abstract tokenizer for FIM: `encode` and `decode`. -/
structure FimTok where
  enc : List Char → List Int
  dec : List Int → List Char

/-- `chunk` (`utils.py:588-646`): with the sampled Bernoulli true, decode,
pick two sorted character boundaries (uniform on `[0, len]`, modelled as
the oracle draw taken mod `len+1`), split, re-encode each part, and choose
SPM/PSM; otherwise return the AR group `[[], [], sample]`. -/
def chunk (o : FimOracle) (tok : FimTok) (sample : List Int) :
    FimSegs × FimFormat :=
  if o.doFim then
    let contents := tok.dec sample
    let b1 := o.r1 % (contents.length + 1)
    let b2 := o.r2 % (contents.length + 1)
    let lo := min b1 b2
    let hi := max b1 b2
    let p := tok.enc (contents.take lo)
    let m := tok.enc ((contents.drop lo).take (hi - lo))
    let s := tok.enc (contents.drop hi)
    (⟨p, m, s, []⟩, if o.doSpm then .SPM else .PSM)
  else
    (⟨[], [], sample, []⟩, .AR)

/-- The eos positions `np.argwhere(sample == eos_tok_id)` of `fim`. -/
def breaksOf (eos_tok_id : Int) (sample : List Int) : List Nat :=
  (List.range sample.length).filter (fun i => sample.getD i 0 = eos_tok_id)

/-- One iteration of the per-eos loop of `fim` (`utils.py:890-900`): chunk
the sub-document `[curr_start, loc)` if it is non-empty (consuming the
next oracle), then jump over the eos token. -/
def fimFoldStep (oracles : Nat → FimOracle) (tok : FimTok)
    (sample : List Int) (st : Nat × Nat × List (FimSegs × FimFormat))
    (loc : Nat) : Nat × Nat × List (FimSegs × FimFormat) :=
  if st.1 < loc then
    (loc + 1, st.2.1 + 1,
      st.2.2 ++ [chunk (oracles st.2.1) tok
        ((sample.drop st.1).take (loc - st.1))])
  else (loc + 1, st.2.1, st.2.2)

/-- The document-splitting loop of `fim` (`utils.py:884-916`): positions of
the eos token partition the sample; only non-empty sub-documents before an
eos are chunked, but the trailing segment after the last eos is chunked
unconditionally.  When no eos occurs, the whole sample is chunked.  Each
`chunk` call consumes the next oracle. -/
def fimSplitChunks (oracles : Nat → FimOracle) (tok : FimTok)
    (eos_tok_id : Int) (sample : List Int) :
    List (FimSegs × FimFormat) :=
  if breaksOf eos_tok_id sample ≠ [] then
    let step := (breaksOf eos_tok_id sample).foldl
      (fimFoldStep oracles tok sample) (0, 0, [])
    step.2.2 ++ [chunk (oracles step.2.1) tok (sample.drop step.1)]
  else [chunk (oracles 0) tok sample]

/-- `samples_lst[i][remove_idx]` for pointer values 0/1/2
(prefix, middle, suffix). -/
def segGet (g : FimSegs) (idx : Nat) : List Int :=
  match idx with
  | 0 => g.pre
  | 1 => g.mid
  | _ => g.suf

/-- `samples_lst[i][remove_idx].pop(pop_idx)`: `pop(-1)` on the suffix,
`pop(0)` on the prefix and on the middle. -/
def segPop (g : FimSegs) (idx : Nat) : FimSegs :=
  match idx with
  | 0 => { g with pre := g.pre.drop 1 }
  | 1 => { g with mid := g.mid.drop 1 }
  | _ => { g with suf := g.suf.dropLast }

/-- Token count of one group (padding not included — `truncate_helper`
never sees a padded group). -/
def segTokens (g : FimSegs) : Nat :=
  g.pre.length + g.mid.length + g.suf.length

def totalTokens (segs : List FimSegs) : Nat :=
  (segs.map segTokens).sum

/-- State of the `while diff:` loop of `truncate_helper`
(`utils.py:762-786`): the groups, the per-group `remove_idxs` pointers,
the current group index `i` and the remaining `diff`. -/
structure TruncState where
  segs : List FimSegs
  idxs : List Nat
  i : Nat
  d : Nat
deriving Repr

/-- One iteration of the loop body of `truncate_helper`: pop a token from
the current group's current section if it is non-empty (decrementing
`diff`), otherwise advance that group's pointer cyclically
(suffix → prefix → middle → suffix); in both cases move round-robin to the
next group. -/
def truncStep (s : TruncState) : TruncState :=
  let ri := s.idxs.getD s.i 0
  let g := s.segs.getD s.i default
  if segGet g ri ≠ [] then
    { segs := s.segs.set s.i (segPop g ri), idxs := s.idxs,
      i := (s.i + 1) % s.segs.length, d := s.d - 1 }
  else
    { segs := s.segs, idxs := s.idxs.set s.i ((ri + 1) % 3),
      i := (s.i + 1) % s.segs.length, d := s.d }

/-- The `while diff:` loop with explicit fuel; `none` means the loop has
not terminated within `fuel` iterations. -/
def truncRun (fuel : Nat) (s : TruncState) : Option (List FimSegs) :=
  match fuel with
  | 0 => if s.d = 0 then some s.segs else none
  | f + 1 => if s.d = 0 then some s.segs else truncRun f (truncStep s)

/-- Initial loop state of `truncate_helper samples_lst diff`: all pointers
at 2 (remove from suffixes first), current index 0. -/
def truncInit (segs : List FimSegs) (diff : Nat) : TruncState :=
  ⟨segs, List.replicate segs.length 2, 0, diff⟩

/-- `truncate_helper` (`utils.py:740-788`), run with enough fuel for every
terminating execution (at most `3·n` iterations pass between two
removals). -/
def truncate_helper (segs : List FimSegs) (diff : Nat) :
    Option (List FimSegs) :=
  truncRun (3 * segs.length * (diff + 1)) (truncInit segs diff)

theorem getD_set_self {α : Type} (l : List α) (i : Nat) (v d : α)
    (hi : i < l.length) : (l.set i v).getD i d = v := by
  rw [List.getD_eq_getElem?_getD, List.getElem?_set_self (by simpa using hi)]
  rfl

theorem getD_set_ne {α : Type} (l : List α) (i j : Nat) (v d : α)
    (h : i ≠ j) : (l.set i v).getD j d = l.getD j d := by
  rw [List.getD_eq_getElem?_getD, List.getElem?_set_ne h,
    ← List.getD_eq_getElem?_getD]

theorem getD_of_le {α : Type} (l : List α) (i : Nat) (d : α)
    (hi : l.length ≤ i) : l.getD i d = d := by
  rw [List.getD_eq_getElem?_getD, List.getElem?_eq_none (by simpa using hi)]
  rfl

theorem totalTokens_cons (g : FimSegs) (rest : List FimSegs) :
    totalTokens (g :: rest) = segTokens g + totalTokens rest := by
  simp [totalTokens]

theorem totalTokens_set (segs : List FimSegs) (i : Nat)
    (hi : i < segs.length) (g' : FimSegs) :
    totalTokens (segs.set i g') + segTokens (segs.getD i default) =
      totalTokens segs + segTokens g' := by
  induction segs generalizing i with
  | nil => simp at hi
  | cons g rest ih =>
      cases i with
      | zero => simp [totalTokens_cons]; omega
      | succ j =>
          simp only [List.set_cons_succ, totalTokens_cons, List.getD_cons_succ]
          have := ih j (by simpa using hi) 
          omega

theorem segGet_default (ri : Nat) : segGet default ri = [] := by
  rcases ri with _ | _ | ri <;> rfl

theorem segPop_tokens (g : FimSegs) (ri : Nat) (h : segGet g ri ≠ []) :
    segTokens (segPop g ri) + 1 = segTokens g := by
  rcases ri with _ | _ | ri
  · simp only [segGet] at h
    have hp : 0 < g.pre.length := List.length_pos.mpr h
    simp only [segPop, segTokens, List.length_drop]
    omega
  · simp only [segGet] at h
    have hp : 0 < g.mid.length := List.length_pos.mpr h
    simp only [segPop, segTokens, List.length_drop]
    omega
  · simp only [segGet] at h
    have hp : 0 < g.suf.length := List.length_pos.mpr h
    simp only [segPop, segTokens, List.length_dropLast]
    omega

theorem truncStep_eq_pop (s : TruncState)
    (h : segGet (s.segs.getD s.i default) (s.idxs.getD s.i 0) ≠ []) :
    truncStep s =
      { segs := s.segs.set s.i
          (segPop (s.segs.getD s.i default) (s.idxs.getD s.i 0)),
        idxs := s.idxs, i := (s.i + 1) % s.segs.length, d := s.d - 1 } := by
  unfold truncStep
  rw [if_pos h]

theorem truncStep_eq_bump (s : TruncState)
    (h : ¬ segGet (s.segs.getD s.i default) (s.idxs.getD s.i 0) ≠ []) :
    truncStep s =
      { segs := s.segs,
        idxs := s.idxs.set s.i ((s.idxs.getD s.i 0 + 1) % 3),
        i := (s.i + 1) % s.segs.length, d := s.d } := by
  unfold truncStep
  rw [if_neg h]

theorem truncStep_segs_length (s : TruncState) :
    (truncStep s).segs.length = s.segs.length := by
  by_cases h : segGet (s.segs.getD s.i default) (s.idxs.getD s.i 0) ≠ []
  · rw [truncStep_eq_pop s h]
    simp
  · rw [truncStep_eq_bump s h]

/-- Claim C2's round-robin fact: every loop iteration — in particular
every single-token removal — advances the current index to the next
segment modulo the number of segments. -/
theorem truncStep_i (s : TruncState) :
    (truncStep s).i = (s.i + 1) % s.segs.length := by
  by_cases h : segGet (s.segs.getD s.i default) (s.idxs.getD s.i 0) ≠ []
  · rw [truncStep_eq_pop s h]
  · rw [truncStep_eq_bump s h]

theorem truncStep_pop_total (s : TruncState)
    (h : segGet (s.segs.getD s.i default) (s.idxs.getD s.i 0) ≠ []) :
    totalTokens (truncStep s).segs + 1 = totalTokens s.segs ∧
      (truncStep s).d = s.d - 1 := by
  have hi : s.i < s.segs.length := by
    by_contra hge
    rw [getD_of_le s.segs s.i default (by omega)] at h
    exact h (segGet_default _)
  rw [truncStep_eq_pop s h]
  refine ⟨?_, rfl⟩
  have hset := totalTokens_set s.segs s.i hi
    (segPop (s.segs.getD s.i default) (s.idxs.getD s.i 0))
  have hpop := segPop_tokens (s.segs.getD s.i default) (s.idxs.getD s.i 0) h
  simp only []
  omega

theorem truncStep_bump_total (s : TruncState)
    (h : ¬ segGet (s.segs.getD s.i default) (s.idxs.getD s.i 0) ≠ []) :
    (truncStep s).segs = s.segs ∧ (truncStep s).d = s.d := by
  rw [truncStep_eq_bump s h]
  exact ⟨rfl, rfl⟩

/-- When the requested removal exceeds the available tokens, the loop
never terminates, whatever the fuel. -/
theorem truncRun_none_of_total_lt (fuel : Nat) :
    ∀ s : TruncState, totalTokens s.segs < s.d → truncRun fuel s = none := by
  induction fuel with
  | zero =>
      intro s h
      unfold truncRun
      rw [if_neg (by omega)]
  | succ f ih =>
      intro s h
      unfold truncRun
      rw [if_neg (by omega)]
      apply ih
      by_cases hc : segGet (s.segs.getD s.i default) (s.idxs.getD s.i 0) ≠ []
      · have := truncStep_pop_total s hc
        omega
      · have := truncStep_bump_total s hc
        rw [this.1, this.2]
        exact h

/-- Every terminating run removes exactly `s.d` tokens. -/
theorem truncRun_total (fuel : Nat) :
    ∀ s r, truncRun fuel s = some r →
      totalTokens r + s.d = totalTokens s.segs := by
  induction fuel with
  | zero =>
      intro s r h
      unfold truncRun at h
      split at h
      · injection h with h
        subst h
        omega
      · cases h
  | succ f ih =>
      intro s r h
      unfold truncRun at h
      split at h
      case isTrue hd =>
        injection h with h
        subst h
        omega
      case isFalse hd =>
        have hrec := ih (truncStep s) r h
        by_cases hc : segGet (s.segs.getD s.i default) (s.idxs.getD s.i 0) ≠ []
        · have := truncStep_pop_total s hc
          omega
        · have := truncStep_bump_total s hc
          rw [this.1, this.2] at hrec
          exact hrec

/-- Cyclic distance from the current index to segment `k`. -/
def distTo (s : TruncState) (k : Nat) : Nat :=
  if s.i ≤ k then k - s.i else k + s.segs.length - s.i

/-- How many pointer bumps segment `k` still needs before its pointer sits
on a non-empty section (0–2; meaningful when the segment is non-empty). -/
def bumpsNeeded (s : TruncState) (k : Nat) : Nat :=
  let g := s.segs.getD k default
  let ri := s.idxs.getD k 0
  if segGet g ri ≠ [] then 0
  else if segGet g ((ri + 1) % 3) ≠ [] then 1 else 2

/-- Progress measure towards the next removal: distance to segment `k`
plus a full round per outstanding bump of `k`. -/
def truncMu (s : TruncState) (k : Nat) : Nat :=
  distTo s k + s.segs.length * bumpsNeeded s k

/-- Structural loop invariant: pointer list in sync, index in range,
pointers below 3. -/
def StInv (s : TruncState) : Prop :=
  s.idxs.length = s.segs.length ∧ s.i < s.segs.length ∧
    ∀ j, s.idxs.getD j 0 < 3

theorem StInv_truncStep (s : TruncState) (hinv : StInv s) :
    StInv (truncStep s) := by
  obtain ⟨hlen, hi, hb⟩ := hinv
  by_cases hc : segGet (s.segs.getD s.i default) (s.idxs.getD s.i 0) ≠ []
  · rw [truncStep_eq_pop s hc]
    refine ⟨by simpa using hlen, ?_, hb⟩
    simp only [List.length_set]
    exact Nat.mod_lt _ (by omega)
  · rw [truncStep_eq_bump s hc]
    refine ⟨by simpa using hlen, ?_, ?_⟩
    · simp only []
      exact Nat.mod_lt _ (by omega)
    · intro j
      by_cases hj : s.i = j
      · subst hj
        by_cases hlt : s.i < s.idxs.length
        · rw [getD_set_self _ _ _ _ hlt]
          exact Nat.mod_lt _ (by omega)
        · rw [List.set_eq_of_length_le (by omega)]
          exact hb s.i
      · rw [getD_set_ne _ _ _ _ _ hj]
        exact hb j

theorem exists_nonempty_seg (segs : List FimSegs)
    (h : totalTokens segs ≠ 0) :
    ∃ k, k < segs.length ∧ segTokens (segs.getD k default) ≠ 0 := by
  induction segs with
  | nil => simp [totalTokens] at h
  | cons g rest ih =>
      rw [totalTokens_cons] at h
      by_cases hg : segTokens g = 0
      · rcases ih (by omega) with ⟨k, hk, hne⟩
        exact ⟨k + 1, by simpa using hk, by simpa using hne⟩
      · exact ⟨0, by simp, by simpa using hg⟩

theorem segNonempty_exists_section (g : FimSegs) (h : segTokens g ≠ 0)
    (ri : Nat) (hri : ri < 3) :
    segGet g ri ≠ [] ∨ segGet g ((ri + 1) % 3) ≠ [] ∨
      segGet g ((ri + 2) % 3) ≠ [] := by
  have hs : g.pre ≠ [] ∨ g.mid ≠ [] ∨ g.suf ≠ [] := by
    unfold segTokens at h
    by_contra hall
    push_neg at hall
    obtain ⟨h1, h2, h3⟩ := hall
    rw [h1, h2, h3] at h
    simp at h
  rcases hs with h1 | h2 | h3
  · interval_cases ri <;> simp [segGet, h1]
  · interval_cases ri <;> simp [segGet, h2]
  · interval_cases ri <;> simp [segGet, h3]

theorem truncMu_lt (s : TruncState) (k : Nat) (hinv : StInv s)
    (hk : k < s.segs.length) :
    truncMu s k < 3 * s.segs.length := by
  obtain ⟨hlen, hi, hb⟩ := hinv
  have hbump : bumpsNeeded s k ≤ 2 := by
    unfold bumpsNeeded
    simp only []
    split
    · omega
    · split <;> omega
  have hprod : s.segs.length * bumpsNeeded s k ≤ s.segs.length * 2 :=
    Nat.mul_le_mul_left _ hbump
  unfold truncMu distTo
  split <;> omega

theorem i_succ_mod (s : TruncState) (hi : s.i < s.segs.length) :
    (s.i + 1) % s.segs.length =
      if s.i + 1 = s.segs.length then 0 else s.i + 1 := by
  split
  case isTrue h => rw [h, Nat.mod_self]
  case isFalse h => exact Nat.mod_eq_of_lt (by omega)

theorem truncStep_bump_idxs (s : TruncState)
    (h : ¬ segGet (s.segs.getD s.i default) (s.idxs.getD s.i 0) ≠ []) :
    (truncStep s).idxs = s.idxs.set s.i ((s.idxs.getD s.i 0 + 1) % 3) := by
  rw [truncStep_eq_bump s h]

theorem truncStep_bump_mu (s : TruncState) (k : Nat) (hinv : StInv s)
    (hk : k < s.segs.length)
    (hne : segTokens (s.segs.getD k default) ≠ 0)
    (hbump : ¬ segGet (s.segs.getD s.i default) (s.idxs.getD s.i 0) ≠ []) :
    truncMu (truncStep s) k < truncMu s k := by
  obtain ⟨hlen, hi, hbnd⟩ := hinv
  have hn : 0 < s.segs.length := by omega
  have hsegs : (truncStep s).segs = s.segs := (truncStep_bump_total s hbump).1
  have hidxs := truncStep_bump_idxs s hbump
  have hstepi := truncStep_i s
  have hbump' : segGet (s.segs.getD s.i default) (s.idxs.getD s.i 0) = [] := by
    push_neg at hbump
    exact hbump
  by_cases hik : s.i = k
  · -- bump happens at segment k itself: one bump is paid off
    subst hik
    have hri : s.idxs.getD s.i 0 < 3 := hbnd s.i
    have hsetk : (truncStep s).idxs.getD s.i 0 =
        (s.idxs.getD s.i 0 + 1) % 3 := by
      rw [hidxs]
      exact getD_set_self _ _ _ _ (by omega)
    have hb1 : 1 ≤ bumpsNeeded s s.i := by
      unfold bumpsNeeded
      simp only []
      rw [if_neg (by simpa using hbump')]
      split <;> omega
    have hbs : bumpsNeeded (truncStep s) s.i + 1 = bumpsNeeded s s.i := by
      unfold bumpsNeeded
      simp only [hsegs, hsetk]
      conv_rhs => rw [if_neg (by simpa using hbump')]
      by_cases h1 : segGet (s.segs.getD s.i default)
          ((s.idxs.getD s.i 0 + 1) % 3) ≠ []
      · rw [if_pos h1, if_pos h1]
      · rw [if_neg h1, if_neg h1]
        rcases segNonempty_exists_section (s.segs.getD s.i default) hne
            (s.idxs.getD s.i 0) hri with h | h | h
        · exact absurd (by simpa using hbump') (by simpa using h)
        · exact absurd h1 (by simpa using h)
        · rw [if_pos (by
            have heq : ((s.idxs.getD s.i 0 + 1) % 3 + 1) % 3 =
                (s.idxs.getD s.i 0 + 2) % 3 := by
              omega
            rw [heq]
            exact h)]
    have hdist : distTo (truncStep s) s.i = s.segs.length - 1 := by
      unfold distTo
      rw [hstepi, hsegs, i_succ_mod s hi]
      split
      case isTrue h =>
        rw [if_pos (by omega)]
        omega
      case isFalse h =>
        rw [if_neg (by omega)]
        omega
    have hd0 : distTo s s.i = 0 := by
      unfold distTo
      rw [if_pos (le_refl _)]
      omega
    unfold truncMu
    rw [hdist, hd0, hsegs, ← hbs, Nat.mul_add]
    omega
  · -- bump elsewhere: distance to k shrinks by one
    have hsetk : (truncStep s).idxs.getD k 0 = s.idxs.getD k 0 := by
      rw [hidxs]
      exact getD_set_ne _ _ _ _ _ hik
    have hbs : bumpsNeeded (truncStep s) k = bumpsNeeded s k := by
      unfold bumpsNeeded
      rw [hsegs, hsetk]
    have hdist : distTo (truncStep s) k + 1 = distTo s k := by
      unfold distTo
      rw [hstepi, hsegs, i_succ_mod s hi]
      by_cases hcase : s.i + 1 = s.segs.length
      · rw [if_pos hcase, if_pos (by omega)]
        split
        · omega
        · omega
      · rw [if_neg hcase]
        split
        · rw [if_pos (by omega)]
          omega
        · split
          · omega
          · omega
    unfold truncMu
    rw [hbs, hsegs]
    omega

theorem truncRun_isSome_of_d0 (fuel : Nat) (s : TruncState) (h : s.d = 0) :
    (truncRun fuel s).isSome := by
  cases fuel <;> simp [truncRun, h]

theorem truncRun_isSome_of_fuel (fuel : Nat) :
    ∀ (s : TruncState) (k : Nat), StInv s →
      s.d ≤ totalTokens s.segs → s.d ≠ 0 → k < s.segs.length →
      segTokens (s.segs.getD k default) ≠ 0 →
      s.d * (3 * s.segs.length) + truncMu s k ≤ fuel →
      (truncRun fuel s).isSome := by
  induction fuel with
  | zero =>
      intro s k hinv hd hd0 hk hne hfuel
      exfalso
      have hn : 0 < s.segs.length := by omega
      have hmul : 1 * (3 * s.segs.length) ≤ s.d * (3 * s.segs.length) :=
        Nat.mul_le_mul_right _ (by omega)
      omega
  | succ f ih =>
      intro s k hinv hd hd0 hk hne hfuel
      have hn : 0 < s.segs.length := by omega
      unfold truncRun
      rw [if_neg hd0]
      by_cases hc : segGet (s.segs.getD s.i default) (s.idxs.getD s.i 0) ≠ []
      · have hpop := truncStep_pop_total s hc
        have hinv' := StInv_truncStep s hinv
        have hlen' := truncStep_segs_length s
        by_cases hd' : (truncStep s).d = 0
        · exact truncRun_isSome_of_d0 f _ hd'
        · have htot' : (truncStep s).d ≤ totalTokens (truncStep s).segs := by
            omega
          have hneTot : totalTokens (truncStep s).segs ≠ 0 := by omega
          rcases exists_nonempty_seg _ hneTot with ⟨k', hk', hne'⟩
          apply ih (truncStep s) k' hinv' htot' hd' hk' hne'
          have hmu' := truncMu_lt (truncStep s) k' hinv' hk'
          rw [hlen'] at hmu' ⊢
          rw [hpop.2]
          have hmul : (s.d - 1) * (3 * s.segs.length) + 3 * s.segs.length =
              s.d * (3 * s.segs.length) := by
            rw [← Nat.succ_mul]
            congr 1
            omega
          omega
      · have hb := truncStep_bump_total s hc
        have hinv' := StInv_truncStep s hinv
        have hmu := truncStep_bump_mu s k hinv hk hne hc
        apply ih (truncStep s) k hinv'
          (by rw [hb.1, hb.2]; exact hd)
          (by rw [hb.2]; exact hd0)
          (by rw [truncStep_segs_length]; exact hk)
          (by rw [hb.1]; exact hne)
        rw [hb.2, truncStep_segs_length]
        omega

theorem getD_replicate {α : Type} (n j : Nat) (v d : α) :
    (List.replicate n v).getD j d = if j < n then v else d := by
  split
  case isTrue h =>
    rw [List.getD_eq_getElem?_getD, List.getElem?_replicate, if_pos h]
    rfl
  case isFalse h =>
    exact getD_of_le _ _ _ (by simpa using h)

theorem StInv_truncInit (segs : List FimSegs) (diff : Nat)
    (hn : 0 < segs.length) : StInv (truncInit segs diff) := by
  refine ⟨by simp [truncInit], by simpa [truncInit] using hn, ?_⟩
  intro j
  show (List.replicate segs.length 2).getD j 0 < 3
  rw [getD_replicate]
  split <;> omega

theorem truncate_helper_isSome (segs : List FimSegs) (diff : Nat)
    (h : diff ≤ totalTokens segs) : (truncate_helper segs diff).isSome := by
  unfold truncate_helper
  by_cases hd0 : diff = 0
  · exact truncRun_isSome_of_d0 _ _ (by simp [truncInit, hd0])
  · have htot : totalTokens segs ≠ 0 := by omega
    rcases exists_nonempty_seg segs htot with ⟨k, hk, hne⟩
    have hn : 0 < segs.length := by omega
    have hinv := StInv_truncInit segs diff hn
    apply truncRun_isSome_of_fuel _ _ k hinv
      (by simpa [truncInit] using h)
      (by simpa [truncInit] using hd0)
      (by simpa [truncInit] using hk)
      (by simpa [truncInit] using hne)
    have hmu := truncMu_lt (truncInit segs diff) k hinv
      (by simpa [truncInit] using hk)
    show diff * (3 * segs.length) + truncMu (truncInit segs diff) k ≤
      3 * segs.length * (diff + 1)
    have hexp : 3 * segs.length * (diff + 1) =
        diff * (3 * segs.length) + 3 * segs.length := by ring
    have hmu' : truncMu (truncInit segs diff) k < 3 * segs.length := by
      simpa [truncInit] using hmu
    omega

/-- Claim C10 (confirmed, for a non-empty segment list — with zero
segments and positive `diff` the source raises an `IndexError` instead):
the `while` loop of `truncate_helper` terminates exactly when the
requested removal `diff` is at most the total number of tokens in all
segments' prefix, middle and suffix lists combined; under that
precondition it ends having removed exactly `diff` tokens, and when `diff`
exceeds that total it never terminates. -/
theorem truncate_helper_terminates_iff (segs : List FimSegs) (diff : Nat)
    (hn : 0 < segs.length) :
    ((∃ fuel r, truncRun fuel (truncInit segs diff) = some r) ↔
      diff ≤ totalTokens segs) ∧
    (∀ fuel r, truncRun fuel (truncInit segs diff) = some r →
      totalTokens r + diff = totalTokens segs) := by
  constructor
  · constructor
    · rintro ⟨fuel, r, hr⟩
      by_contra hgt
      push_neg at hgt
      rw [truncRun_none_of_total_lt fuel _ (by simpa [truncInit] using hgt)]
        at hr
      cases hr
    · intro hle
      have hsome := truncate_helper_isSome segs diff hle
      unfold truncate_helper at hsome
      rcases Option.isSome_iff_exists.mp hsome with ⟨r, hr⟩
      exact ⟨_, r, hr⟩
  · intro fuel r hr
    have := truncRun_total fuel _ r hr
    simpa [truncInit] using this

/-- Witness for claim C10: with one segment holding one suffix token,
removal of 1 token terminates, removal of 2 tokens does not. -/
theorem truncate_helper_terminates_iff_witness :
    (∃ fuel r, truncRun fuel (truncInit [⟨[], [], [5], []⟩] 1) = some r) ∧
    ¬ (∃ fuel r, truncRun fuel (truncInit [⟨[], [], [5], []⟩] 2) = some r) := by
  constructor
  · exact (truncate_helper_terminates_iff [⟨[], [], [5], []⟩] 1
      (by decide)).1.mpr (by decide)
  · intro hex
    have h2 := (truncate_helper_terminates_iff [⟨[], [], [5], []⟩] 2
      (by decide)).1.mp hex
    revert h2
    decide

/-- Relation between a group and its original: the suffix is only ever
shortened at its end, the prefix and the middle only at their start, the
padding is untouched, and the ordered policy holds — the prefix is touched
only after the suffix is exhausted, the middle only after both are. -/
def SegRel (orig g : FimSegs) : Prop :=
  g.suf.IsPrefix orig.suf ∧ g.pre.IsSuffix orig.pre ∧
    g.mid.IsSuffix orig.mid ∧ g.pad = orig.pad ∧
    (g.pre ≠ orig.pre → g.suf = []) ∧
    (g.mid ≠ orig.mid → g.suf = [] ∧ g.pre = [])

/-- What a pointer value says about its group: the pointer reaches the
prefix (0) only once the suffix is empty, and the middle (1) only once
both the suffix and the prefix are empty. -/
def PtrInv (g : FimSegs) (ri : Nat) : Prop :=
  (ri = 0 → g.suf = []) ∧ (ri = 1 → g.suf = [] ∧ g.pre = [])

/-- The truncation-policy invariant of the loop state relative to the
original segments. -/
def TruncRel (orig : List FimSegs) (s : TruncState) : Prop :=
  s.segs.length = orig.length ∧
    ∀ k, k < orig.length →
      SegRel (orig.getD k default) (s.segs.getD k default) ∧
      PtrInv (s.segs.getD k default) (s.idxs.getD k 0)

theorem SegRel_refl (g : FimSegs) : SegRel g g :=
  ⟨List.prefix_refl _, List.suffix_refl _, List.suffix_refl _, rfl,
    fun h => absurd rfl h, fun h => absurd rfl h⟩

theorem TruncRel_truncInit (segs : List FimSegs) (diff : Nat) :
    TruncRel segs (truncInit segs diff) := by
  refine ⟨rfl, ?_⟩
  intro k hk
  refine ⟨SegRel_refl _, ?_, ?_⟩
  · intro h0
    exfalso
    revert h0
    show (List.replicate segs.length 2).getD k 0 = 0 → False
    rw [getD_replicate, if_pos hk]
    omega
  · intro h1
    exfalso
    revert h1
    show (List.replicate segs.length 2).getD k 0 = 1 → False
    rw [getD_replicate, if_pos hk]
    omega

theorem SegRel_segPop (orig g : FimSegs) (ri : Nat)
    (hrel : SegRel orig g) (hptr : PtrInv g ri)
    (hne : segGet g ri ≠ []) :
    SegRel orig (segPop g ri) ∧ PtrInv (segPop g ri) ri := by
  obtain ⟨hsuf, hpre, hmid, hpad, himp1, himp2⟩ := hrel
  obtain ⟨hp0, hp1⟩ := hptr
  rcases ri with _ | _ | ri
  · -- pop from the beginning of the prefix; suffix already empty
    have hs0 : g.suf = [] := hp0 rfl
    have hmideq : g.mid = orig.mid := by
      by_contra hne'
      exact hne (himp2 hne').2
    refine ⟨⟨by simpa [segPop, hs0] using hsuf, ?_, ?_, hpad, ?_, ?_⟩, ?_, ?_⟩
    · exact (List.drop_suffix 1 g.pre).trans hpre
    · simpa [segPop] using hmid
    · intro _
      simpa [segPop] using hs0
    · intro hne'
      exact absurd (by simpa [segPop] using hmideq)
        (by simpa [segPop] using hne')
    · intro _
      simpa [segPop] using hs0
    · intro h1
      cases h1
  · -- pop from the beginning of the middle; suffix and prefix empty
    have hs0 : g.suf = [] := (hp1 rfl).1
    have hpr0 : g.pre = [] := (hp1 rfl).2
    refine ⟨⟨by simpa [segPop, hs0] using hsuf,
      by simpa [segPop] using hpre,
      (List.drop_suffix 1 g.mid).trans hmid, hpad, ?_, ?_⟩, ?_, ?_⟩
    · intro _
      simpa [segPop] using hs0
    · intro _
      exact ⟨by simpa [segPop] using hs0, by simpa [segPop] using hpr0⟩
    · intro h0
      cases h0
    · intro _
      exact ⟨by simpa [segPop] using hs0, by simpa [segPop] using hpr0⟩
  · -- pop from the end of the suffix
    have hpreq : g.pre = orig.pre := by
      by_contra hne'
      exact hne (himp1 hne')
    have hmideq : g.mid = orig.mid := by
      by_contra hne'
      exact hne (himp2 hne').1
    refine ⟨⟨(List.dropLast_prefix g.suf).trans hsuf,
      by simpa [segPop] using hpre, by simpa [segPop] using hmid,
      hpad, ?_, ?_⟩, ?_, ?_⟩
    · intro hne'
      exact absurd (by simpa [segPop] using hpreq)
        (by simpa [segPop] using hne')
    · intro hne'
      exact absurd (by simpa [segPop] using hmideq)
        (by simpa [segPop] using hne')
    · intro h0
      cases h0
    · intro h1
      cases h1

theorem TruncRel_truncStep (orig : List FimSegs) (s : TruncState)
    (hinv : StInv s) (hrel : TruncRel orig s) :
    TruncRel orig (truncStep s) := by
  obtain ⟨hlen, hrelk⟩ := hrel
  obtain ⟨hilen, hi, hbnd⟩ := hinv
  by_cases hc : segGet (s.segs.getD s.i default) (s.idxs.getD s.i 0) ≠ []
  · rw [truncStep_eq_pop s hc]
    refine ⟨by simpa using hlen, ?_⟩
    intro k hk
    by_cases hik : s.i = k
    · subst hik
      have hgd : (s.segs.set s.i
          (segPop (s.segs.getD s.i default) (s.idxs.getD s.i 0))).getD s.i
            default =
          segPop (s.segs.getD s.i default) (s.idxs.getD s.i 0) :=
        getD_set_self _ _ _ _ hi
      show SegRel _ _ ∧ PtrInv _ _
      rw [hgd]
      have hp := SegRel_segPop (orig.getD s.i default)
        (s.segs.getD s.i default) (s.idxs.getD s.i 0)
        (hrelk s.i hk).1 (hrelk s.i hk).2 hc
      exact hp
    · show SegRel _ _ ∧ PtrInv _ _
      rw [getD_set_ne _ _ _ _ _ hik]
      exact hrelk k hk
  · rw [truncStep_eq_bump s hc]
    refine ⟨hlen, ?_⟩
    intro k hk
    by_cases hik : s.i = k
    · subst hik
      have hgd : (s.idxs.set s.i ((s.idxs.getD s.i 0 + 1) % 3)).getD s.i 0 =
          (s.idxs.getD s.i 0 + 1) % 3 :=
        getD_set_self _ _ _ _ (by omega)
      show SegRel _ _ ∧ PtrInv _ _
      rw [hgd]
      refine ⟨(hrelk s.i hk).1, ?_⟩
      push_neg at hc
      have hptr := (hrelk s.i hk).2
      unfold PtrInv at hptr ⊢
      set ri := s.idxs.getD s.i 0 with hridef
      have hri : ri < 3 := hbnd s.i
      interval_cases ri
      · constructor
        · intro h0
          exact absurd h0 (by decide)
        · intro _
          exact ⟨hptr.1 rfl, hc⟩
      · constructor
        · intro h0
          exact absurd h0 (by decide)
        · intro h1
          exact absurd h1 (by decide)
      · constructor
        · intro _
          exact hc
        · intro h1
          exact absurd h1 (by decide)
    · show SegRel _ _ ∧ PtrInv _ _
      rw [getD_set_ne _ _ _ _ _ hik]
      exact hrelk k hk

theorem truncRun_rel (fuel : Nat) :
    ∀ (s : TruncState) (r orig : List FimSegs), StInv s → TruncRel orig s →
      truncRun fuel s = some r →
      r.length = orig.length ∧
        ∀ k, k < orig.length →
          SegRel (orig.getD k default) (r.getD k default) := by
  induction fuel with
  | zero =>
      intro s r orig hinv hrel h
      unfold truncRun at h
      split at h
      · injection h with h
        subst h
        exact ⟨hrel.1, fun k hk => (hrel.2 k hk).1⟩
      · cases h
  | succ f ih =>
      intro s r orig hinv hrel h
      unfold truncRun at h
      split at h
      · injection h with h
        subst h
        exact ⟨hrel.1, fun k hk => (hrel.2 k hk).1⟩
      · exact ih (truncStep s) r orig (StInv_truncStep s hinv)
          (TruncRel_truncStep orig s hinv hrel) h

theorem truncRun_d0 (fuel : Nat) (s : TruncState) (h : s.d = 0) :
    truncRun fuel s = some s.segs := by
  cases fuel <;> simp [truncRun, h]

/-- Claim C2 (corrected): whenever `0 ≤ diff` does not exceed the total
token count of the segments, `truncate_helper` terminates having removed
exactly `diff` tokens; every segment's suffix is shortened only at its
end, its prefix and middle only at their start; a segment's prefix is
touched only once its suffix is exhausted and its middle only once both
are (`SegRel`); and every loop iteration — in particular each single-token
removal — advances round-robin to the next segment.  (As stated, the claim
is false: when `diff` exceeds the total, the loop never returns, so no
"exactly `diff` tokens" removal takes place — see the counterexample.) -/
theorem truncate_helper_policy (segs : List FimSegs) (diff : Nat)
    (hd : diff ≤ totalTokens segs) :
    (∃ r, truncate_helper segs diff = some r ∧
      r.length = segs.length ∧
      totalTokens r + diff = totalTokens segs ∧
      ∀ k, k < segs.length →
        SegRel (segs.getD k default) (r.getD k default)) ∧
    (∀ s : TruncState, (truncStep s).i = (s.i + 1) % s.segs.length) := by
  refine ⟨?_, truncStep_i⟩
  by_cases hd0 : diff = 0
  · subst hd0
    refine ⟨segs, ?_, rfl, by omega, fun k hk => SegRel_refl _⟩
    unfold truncate_helper
    exact truncRun_d0 _ _ rfl
  · have hn : 0 < segs.length := by
      rcases exists_nonempty_seg segs (by omega) with ⟨k, hk, _⟩
      omega
    have hsome := truncate_helper_isSome segs diff hd
    rcases Option.isSome_iff_exists.mp hsome with ⟨r, hr⟩
    have hrun : truncRun (3 * segs.length * (diff + 1))
        (truncInit segs diff) = some r := hr
    have htotal := truncRun_total _ _ _ hrun
    have hrel := truncRun_rel _ _ r segs (StInv_truncInit segs diff hn)
      (TruncRel_truncInit segs diff) hrun
    exact ⟨r, hr, hrel.1, by simpa [truncInit] using htotal, hrel.2⟩

/-- Claim C2 counterexample: with a single empty segment and `diff = 1`
(`diff` non-negative, as the claim requires), `truncate_helper` never
terminates — it does not "remove exactly `diff` tokens". -/
theorem truncate_helper_counterexample :
    truncate_helper [⟨[], [], [], []⟩] 1 = none ∧
    ¬ (∃ fuel r,
        truncRun fuel (truncInit [⟨[], [], [], []⟩] 1) = some r) := by
  constructor
  · exact truncRun_none_of_total_lt _ _ (by decide)
  · rintro ⟨fuel, r, hr⟩
    rw [truncRun_none_of_total_lt fuel _ (by decide)] at hr
    cases hr

/-- Witness for claim C2: one segment `[[1,2],[3],[4,5]]` with `diff = 3`:
the run terminates, removes exactly three tokens, and respects the
ordered-removal policy. -/
theorem truncate_helper_policy_witness :
    (∃ r, truncate_helper [⟨[1, 2], [3], [4, 5], []⟩] 3 = some r ∧
      r.length = 1 ∧
      totalTokens r + 3 = totalTokens [⟨[1, 2], [3], [4, 5], []⟩] ∧
      ∀ k, k < 1 →
        SegRel ([(⟨[1, 2], [3], [4, 5], []⟩ : FimSegs)].getD k default)
          (r.getD k default)) ∧
    (∀ s : TruncState, (truncStep s).i = (s.i + 1) % s.segs.length) :=
  truncate_helper_policy [⟨[1, 2], [3], [4, 5], []⟩] 3 (by decide)

/-- Spec-side splitting, written from the spec's words: "a multi-document
frame is split on end-of-sequence token positions".  `k` eos tokens yield
`k + 1` pieces (possibly empty). -/
def splitAtEos (eos : Int) : List Int → List (List Int)
  | [] => [[]]
  | x :: rest =>
      let r := splitAtEos eos rest
      if x = eos then [] :: r
      else
        match r with
        | [] => [[x]]
        | h :: t => (x :: h) :: t

/-- The sub-documents `fim` actually chunks: the non-empty pieces before
each eos, plus the piece after the last eos unconditionally. -/
def keptSubDocs (eos : Int) (sample : List Int) : List (List Int) :=
  let ps := splitAtEos eos sample
  ps.dropLast.filter (fun p => !p.isEmpty) ++ [ps.getLastD []]

theorem splitAtEos_cons (eos x : Int) (rest : List Int) :
    splitAtEos eos (x :: rest) =
      if x = eos then [] :: splitAtEos eos rest
      else
        match splitAtEos eos rest with
        | [] => [[x]]
        | h :: t => (x :: h) :: t := rfl

theorem splitAtEos_ne_nil (eos : Int) (l : List Int) :
    splitAtEos eos l ≠ [] := by
  cases l with
  | nil => simp [splitAtEos]
  | cons x rest =>
      rw [splitAtEos_cons]
      by_cases hx : x = eos
      · rw [if_pos hx]
        simp
      · rw [if_neg hx]
        rcases hsp : splitAtEos eos rest with _ | ⟨hh, tt⟩ <;> simp

theorem splitAtEos_not_mem (eos : Int) (l : List Int) (h : eos ∉ l) :
    splitAtEos eos l = [l] := by
  induction l with
  | nil => rfl
  | cons x rest ih =>
      have hx : x ≠ eos := fun hc => h (hc ▸ List.mem_cons_self x rest)
      have hrest : eos ∉ rest := fun hc => h (List.mem_cons_of_mem x hc)
      rw [splitAtEos_cons, if_neg hx, ih hrest]

theorem splitAtEos_append_cons (eos : Int) (pre rest : List Int)
    (h : eos ∉ pre) :
    splitAtEos eos (pre ++ eos :: rest) = pre :: splitAtEos eos rest := by
  induction pre with
  | nil =>
      rw [List.nil_append, splitAtEos_cons, if_pos rfl]
  | cons c cs ih =>
      have hc : c ≠ eos := fun hc => h (hc ▸ List.mem_cons_self c cs)
      have hcs : eos ∉ cs := fun hc => h (List.mem_cons_of_mem c hc)
      rw [List.cons_append, splitAtEos_cons, if_neg hc, ih hcs]

theorem exists_first_eos (eos : Int) (sample : List Int)
    (h : eos ∈ sample) :
    ∃ pre rest, sample = pre ++ eos :: rest ∧ eos ∉ pre := by
  induction sample with
  | nil => simp at h
  | cons x xs ih =>
      by_cases hx : x = eos
      · refine ⟨[], xs, ?_, by simp⟩
        rw [hx]
        rfl
      · rcases ih (by
          rcases List.mem_cons.mp h with h' | h'
          · exact absurd h'.symm hx
          · exact h') with ⟨pre, rest, heq, hpre⟩
        refine ⟨x :: pre, rest, by rw [heq]; rfl, ?_⟩
        exact (by
          intro hmem
          rcases List.mem_cons.mp hmem with h' | h'
          · exact hx h'.symm
          · exact hpre h')

theorem breaksOf_not_mem (eos : Int) (sample : List Int)
    (h : eos ∉ sample) : breaksOf eos sample = [] := by
  unfold breaksOf
  rw [List.filter_eq_nil]
  intro i hi
  rw [List.mem_range] at hi
  simp only [decide_eq_true_eq]
  intro hc
  apply h
  rw [← hc]
  have : sample.getD i 0 = sample[i] := List.getD_eq_getElem sample 0 hi
  rw [this]
  exact List.getElem_mem hi

theorem breaksOf_append_cons (eos : Int) (pre rest : List Int)
    (h : eos ∉ pre) :
    breaksOf eos (pre ++ eos :: rest) =
      pre.length :: (breaksOf eos rest).map (fun b => pre.length + 1 + b) := by
  unfold breaksOf
  rw [show (pre ++ eos :: rest).length = pre.length + (1 + rest.length) by
    simp; omega]
  rw [List.range_add, List.range_add]
  rw [List.filter_append, List.map_append, List.filter_append]
  have hA : (List.range pre.length).filter
      (fun i => decide ((pre ++ eos :: rest).getD i 0 = eos)) = [] := by
    rw [List.filter_eq_nil]
    intro i hi
    rw [List.mem_range] at hi
    rw [List.getD_append _ _ _ _ hi]
    simp only [decide_eq_true_eq]
    intro hc
    apply h
    rw [← hc]
    have hg : pre.getD i 0 = pre[i] := List.getD_eq_getElem pre 0 hi
    rw [hg]
    exact List.getElem_mem hi
  have hB : ((List.range 1).map (fun x => pre.length + x)).filter
      (fun i => decide ((pre ++ eos :: rest).getD i 0 = eos)) =
      [pre.length] := by
    show ([pre.length + 0].filter _) = _
    have hg : (pre ++ eos :: rest).getD (pre.length + 0) 0 = eos := by
      rw [List.getD_append_right _ _ _ _ (by omega)]
      simp
    rw [List.filter_cons]
    rw [if_pos (by simpa using hg)]
    simp
  have hC : (((List.range rest.length).map (fun x => 1 + x)).map
        (fun x => pre.length + x)).filter
      (fun i => decide ((pre ++ eos :: rest).getD i 0 = eos)) =
      ((List.range rest.length).filter
        (fun i => decide (rest.getD i 0 = eos))).map
        (fun b => pre.length + 1 + b) := by
    rw [List.map_map, List.filter_map]
    have hfun : ((fun x => pre.length + x) ∘ fun x => 1 + x) =
        (fun b => pre.length + 1 + b) := by
      funext x
      simp
      omega
    rw [hfun]
    congr 1
    apply List.filter_congr
    intro i _
    have hg : (pre ++ eos :: rest).getD (pre.length + 1 + i) 0 =
        rest.getD i 0 := by
      rw [List.getD_append_right _ _ _ _ (by omega)]
      rw [show pre.length + 1 + i - pre.length = 1 + i by omega]
      show (eos :: rest).getD (1 + i) 0 = rest.getD i 0
      rw [show 1 + i = i + 1 by omega]
      rfl
    show decide ((pre ++ eos :: rest).getD (pre.length + 1 + i) 0 = eos) =
      decide (rest.getD i 0 = eos)
    rw [hg]
  rw [hA, hB, hC]
  rfl

theorem fimFold_acc (tok : FimTok) (sample : List Int) (bs : List Nat) :
    ∀ (oracles : Nat → FimOracle) (c o : Nat)
      (ps : List (FimSegs × FimFormat)),
      List.foldl (fimFoldStep oracles tok sample) (c, o, ps) bs =
        ((List.foldl (fimFoldStep (fun i => oracles (i + o)) tok sample)
            (c, 0, []) bs).1,
          (List.foldl (fimFoldStep (fun i => oracles (i + o)) tok sample)
            (c, 0, []) bs).2.1 + o,
          ps ++ (List.foldl (fimFoldStep (fun i => oracles (i + o)) tok sample)
            (c, 0, []) bs).2.2) := by
  induction bs with
  | nil => intro oracles c o ps; simp
  | cons b bs ih =>
      intro oracles c o ps
      rw [List.foldl_cons, List.foldl_cons]
      by_cases hc : c < b
      · rw [show fimFoldStep oracles tok sample (c, o, ps) b =
            (b + 1, o + 1, ps ++ [chunk (oracles o) tok
              ((sample.drop c).take (b - c))]) by
          unfold fimFoldStep
          rw [if_pos hc]]
        rw [show fimFoldStep (fun i => oracles (i + o)) tok sample
            (c, 0, []) b =
            (b + 1, 1, [chunk (oracles o) tok
              ((sample.drop c).take (b - c))]) by
          unfold fimFoldStep
          rw [if_pos hc]
          simp]
        rw [ih oracles (b + 1) (o + 1), ih (fun i => oracles (i + o)) (b + 1) 1]
        have hfun : (fun i => oracles (i + (o + 1))) =
            (fun i => oracles (i + 1 + o)) := by
          funext i
          congr 1
          omega
        rw [hfun]
        simp [List.append_assoc]
        omega
      · rw [show fimFoldStep oracles tok sample (c, o, ps) b =
            (b + 1, o, ps) by
          unfold fimFoldStep
          rw [if_neg hc]]
        rw [show fimFoldStep (fun i => oracles (i + o)) tok sample
            (c, 0, []) b = (b + 1, 0, []) by
          unfold fimFoldStep
          rw [if_neg hc]]
        exact ih oracles (b + 1) o ps

theorem fimFold_shift (tok : FimTok) (pre rest : List Int) (eos : Int)
    (bs : List Nat) :
    ∀ (oracles : Nat → FimOracle) (c : Nat),
      List.foldl (fimFoldStep oracles tok (pre ++ eos :: rest))
          (c + (pre.length + 1), 0, [])
          (bs.map (fun b => pre.length + 1 + b)) =
        ((List.foldl (fimFoldStep oracles tok rest) (c, 0, []) bs).1 +
            (pre.length + 1),
          (List.foldl (fimFoldStep oracles tok rest) (c, 0, []) bs).2.1,
          (List.foldl (fimFoldStep oracles tok rest) (c, 0, []) bs).2.2) := by
  induction bs with
  | nil => intro oracles c; simp
  | cons b bs ih =>
      intro oracles c
      rw [List.map_cons, List.foldl_cons, List.foldl_cons]
      have hdrop : (pre ++ eos :: rest).drop (c + (pre.length + 1)) =
          rest.drop c := by
        rw [show c + (pre.length + 1) = pre.length + (c + 1) by omega,
          List.drop_append]
        rfl
      by_cases hc : c < b
      · have hstepL : fimFoldStep oracles tok (pre ++ eos :: rest)
            (c + (pre.length + 1), 0, []) (pre.length + 1 + b) =
            (b + 1 + (pre.length + 1), 1,
              [chunk (oracles 0) tok ((rest.drop c).take (b - c))]) := by
          unfold fimFoldStep
          rw [if_pos (by omega : (c + (pre.length + 1), 0,
            ([] : List (FimSegs × FimFormat))).1 < pre.length + 1 + b)]
          rw [show pre.length + 1 + b - (c + (pre.length + 1)) = b - c by
            omega]
          rw [hdrop]
          refine congrArg (fun z => (z, 1,
            [chunk (oracles 0) tok ((rest.drop c).take (b - c))])) ?_
          omega
        have hstepR : fimFoldStep oracles tok rest (c, 0, []) b =
            (b + 1, 1,
              [chunk (oracles 0) tok ((rest.drop c).take (b - c))]) := by
          unfold fimFoldStep
          rw [if_pos (by simpa using hc)]
          rfl
        rw [hstepL, hstepR]
        rw [fimFold_acc tok (pre ++ eos :: rest)
          (bs.map (fun b => pre.length + 1 + b)) oracles
          (b + 1 + (pre.length + 1)) 1,
          fimFold_acc tok rest bs oracles (b + 1) 1]
        rw [show b + 1 + (pre.length + 1) = (b + 1) + (pre.length + 1) by
          omega]
        rw [ih (fun i => oracles (i + 1)) (b + 1)]
      · have hstepL : fimFoldStep oracles tok (pre ++ eos :: rest)
            (c + (pre.length + 1), 0, []) (pre.length + 1 + b) =
            (b + 1 + (pre.length + 1), 0, []) := by
          unfold fimFoldStep
          rw [if_neg (by omega : ¬ (c + (pre.length + 1), 0,
            ([] : List (FimSegs × FimFormat))).1 < pre.length + 1 + b)]
          refine congrArg (fun z => (z, 0, ([] : List (FimSegs × FimFormat))))
            ?_
          omega
        have hstepR : fimFoldStep oracles tok rest (c, 0, []) b =
            (b + 1, 0, []) := by
          unfold fimFoldStep
          rw [if_neg (by simpa using hc)]
        rw [hstepL, hstepR,
          show b + 1 + (pre.length + 1) = (b + 1) + (pre.length + 1) by omega,
          ih oracles (b + 1)]

theorem breaksOf_ne_nil_of_mem (eos : Int) (l : List Int) (h : eos ∈ l) :
    breaksOf eos l ≠ [] := by
  rcases List.mem_iff_getElem.mp h with ⟨i, hi, hget⟩
  apply List.ne_nil_of_mem (a := i)
  unfold breaksOf
  rw [List.mem_filter]
  refine ⟨List.mem_range.mpr hi, ?_⟩
  simp only [decide_eq_true_eq]
  rw [List.getD_eq_getElem l 0 hi]
  exact hget

theorem eos_not_mem_of_breaksOf_nil (eos : Int) (l : List Int)
    (h : breaksOf eos l = []) : eos ∉ l :=
  fun hmem => breaksOf_ne_nil_of_mem eos l hmem h

theorem fimSplitChunks_no_eos (oracles : Nat → FimOracle) (tok : FimTok)
    (eos : Int) (sample : List Int) (h : eos ∉ sample) :
    fimSplitChunks oracles tok eos sample =
      [chunk (oracles 0) tok sample] := by
  unfold fimSplitChunks
  rw [breaksOf_not_mem eos sample h]
  rw [if_neg (by simp)]

theorem fimSplitChunks_split (oracles : Nat → FimOracle) (tok : FimTok)
    (eos : Int) (pre rest : List Int) (hpre : eos ∉ pre) :
    fimSplitChunks oracles tok eos (pre ++ eos :: rest) =
      (if pre = [] then fimSplitChunks oracles tok eos rest
       else chunk (oracles 0) tok pre ::
         fimSplitChunks (fun i => oracles (i + 1)) tok eos rest) := by
  have hbr := breaksOf_append_cons eos pre rest hpre
  have hdrop : ∀ c, (pre ++ eos :: rest).drop (c + (pre.length + 1)) =
      rest.drop c := by
    intro c
    rw [show c + (pre.length + 1) = pre.length + (c + 1) by omega,
      List.drop_append]
    rfl
  rw [show fimSplitChunks oracles tok eos (pre ++ eos :: rest) =
      (let step := (breaksOf eos (pre ++ eos :: rest)).foldl
        (fimFoldStep oracles tok (pre ++ eos :: rest)) (0, 0, [])
       step.2.2 ++ [chunk (oracles step.2.1) tok
        ((pre ++ eos :: rest).drop step.1)]) by
    unfold fimSplitChunks
    rw [if_pos (by rw [hbr]; simp)]]
  simp only []
  rw [hbr, List.foldl_cons]
  by_cases hp : pre = []
  · subst hp
    rw [show fimFoldStep oracles tok (([] : List Int) ++ eos :: rest)
        (0, 0, []) ([].length) = (0 + (List.length ([] : List Int) + 1), 0, [])
      by unfold fimFoldStep; rw [if_neg (by simp)]; rfl]
    rw [fimFold_shift tok [] rest eos (breaksOf eos rest) oracles 0]
    rw [if_pos rfl]
    unfold fimSplitChunks
    by_cases hbr2 : breaksOf eos rest ≠ []
    · rw [if_pos hbr2]
      simp only []
      rw [hdrop]
    · rw [if_neg hbr2]
      push_neg at hbr2
      rw [hbr2]
      simp only [List.foldl_nil]
      rw [hdrop]
      rfl
  · rw [show fimFoldStep oracles tok (pre ++ eos :: rest)
        (0, 0, []) (pre.length) = (0 + (pre.length + 1), 1,
          [chunk (oracles 0) tok pre]) by
      unfold fimFoldStep
      rw [if_pos (by
        simp only []
        exact List.length_pos.mpr hp)]
      rw [show ((pre ++ eos :: rest).drop (0, (0 : Nat),
        ([] : List (FimSegs × FimFormat))).1) = pre ++ eos :: rest from rfl]
      rw [show pre.length - (0, (0 : Nat),
        ([] : List (FimSegs × FimFormat))).1 = pre.length from rfl]
      rw [List.take_left pre (eos :: rest)]
      refine congrArg (fun z => (z, 1, [chunk (oracles 0) tok pre])) ?_
      omega]
    rw [fimFold_acc tok (pre ++ eos :: rest)
      ((breaksOf eos rest).map (fun b => pre.length + 1 + b)) oracles
      (0 + (pre.length + 1)) 1]
    rw [fimFold_shift tok pre rest eos (breaksOf eos rest)
      (fun i => oracles (i + 1)) 0]
    rw [if_neg hp]
    unfold fimSplitChunks
    by_cases hbr2 : breaksOf eos rest ≠ []
    · rw [if_pos hbr2]
      simp only []
      rw [hdrop]
      rfl
    · rw [if_neg hbr2]
      push_neg at hbr2
      rw [hbr2]
      simp only [List.foldl_nil]
      rw [hdrop]
      rfl

theorem getLastD_of_ne_nil {α : Type} (l : List α) (hne : l ≠ [])
    (a b : α) : l.getLastD a = l.getLastD b := by
  cases l with
  | nil => exact absurd rfl hne
  | cons x xs => rw [List.getLastD_cons, List.getLastD_cons]

theorem keptSubDocs_split (eos : Int) (pre rest : List Int)
    (h : eos ∉ pre) :
    keptSubDocs eos (pre ++ eos :: rest) =
      (if pre = [] then [] else [pre]) ++ keptSubDocs eos rest := by
  unfold keptSubDocs
  rw [splitAtEos_append_cons _ _ _ h]
  have hne := splitAtEos_ne_nil eos rest
  rcases hsp : splitAtEos eos rest with _ | ⟨h0, t0⟩
  · exact absurd hsp hne
  · simp only []
    rw [List.dropLast_cons₂, List.filter_cons, List.getLastD_cons]
    have hlast : (h0 :: t0).getLastD pre = (h0 :: t0).getLastD [] :=
      getLastD_of_ne_nil _ (by simp) pre []
    rw [hlast]
    by_cases hp : pre = []
    · rw [if_pos hp]
      rw [show (!pre.isEmpty) = false by rw [hp]; rfl]
      simp
    · rw [if_neg hp]
      rw [show (!pre.isEmpty) = true by
        cases pre with
        | nil => exact absurd rfl hp
        | cons a l => rfl]
      simp

theorem fimSplitChunks_eq_keptSubDocs_aux (tok : FimTok) (eos : Int) :
    ∀ (sample : List Int) (oracles : Nat → FimOracle),
      fimSplitChunks oracles tok eos sample =
        List.mapIdx (fun i p => chunk (oracles i) tok p)
          (keptSubDocs eos sample) := by
  suffices H : ∀ (n : Nat) (sample : List Int) (oracles : Nat → FimOracle),
      sample.length ≤ n →
      fimSplitChunks oracles tok eos sample =
        List.mapIdx (fun i p => chunk (oracles i) tok p)
          (keptSubDocs eos sample) by
    intro sample oracles
    exact H sample.length sample oracles le_rfl
  intro n
  induction n with
  | zero =>
      intro sample oracles hlen
      have hnil : sample = [] := List.length_eq_zero.mp (by omega)
      subst hnil
      rfl
  | succ n ih =>
      intro sample oracles hlen
      by_cases hmem : eos ∈ sample
      · rcases exists_first_eos eos sample hmem with ⟨pre, rest, rfl, hpre⟩
        have hrest : rest.length ≤ n := by
          rw [List.length_append, List.length_cons] at hlen
          omega
        rw [fimSplitChunks_split oracles tok eos pre rest hpre,
          keptSubDocs_split eos pre rest hpre]
        by_cases hp : pre = []
        · rw [if_pos hp, if_pos hp, List.nil_append]
          exact ih rest oracles hrest
        · rw [if_neg hp, if_neg hp]
          rw [show ([pre] ++ keptSubDocs eos rest) =
            pre :: keptSubDocs eos rest from rfl]
          rw [List.mapIdx_cons]
          rw [ih rest (fun i => oracles (i + 1)) hrest]
      · rw [fimSplitChunks_no_eos oracles tok eos sample hmem]
        unfold keptSubDocs
        rw [splitAtEos_not_mem eos sample hmem]
        rfl

/-- Claim C7 (corrected): the splitting loop of `fim` equals chunking the
sub-documents obtained by splitting the sample at every eos position,
where the empty sub-documents strictly before an eos are skipped but the
sub-document after the last eos is chunked unconditionally — even when it
is empty.  Each kept sub-document consumes the next random oracle in
order. -/
theorem fimSplitChunks_eq_keptSubDocs (tok : FimTok) (eos : Int)
    (sample : List Int) (oracles : Nat → FimOracle) :
    fimSplitChunks oracles tok eos sample =
      List.mapIdx (fun i p => chunk (oracles i) tok p)
        (keptSubDocs eos sample) :=
  fimSplitChunks_eq_keptSubDocs_aux tok eos sample oracles

/-- Claim C7 counterexample: for the two-token sample `[7, eos]` the
trailing empty sub-document after the final eos is *not* skipped — the
splitting loop produces a second (empty) segment entry. -/
theorem fimSplitChunks_trailing_empty_not_skipped :
    fimSplitChunks (fun _ => ⟨false, 0, 0, false⟩) ⟨fun _ => [], fun _ => []⟩
        0 [7, 0] =
      [(⟨[], [], [7], []⟩, FimFormat.AR), (⟨[], [], [], []⟩, FimFormat.AR)] ∧
    (fimSplitChunks (fun _ => ⟨false, 0, 0, false⟩)
        ⟨fun _ => [], fun _ => []⟩ 0 [7, 0]).length ≠ 1 := by
  refine ⟨rfl, ?_⟩
  rw [show fimSplitChunks (fun _ => ⟨false, 0, 0, false⟩)
      ⟨fun _ => [], fun _ => []⟩ 0 [7, 0] =
    [(⟨[], [], [7], []⟩, FimFormat.AR), (⟨[], [], [], []⟩, FimFormat.AR)]
    from rfl]
  simp

/-- `pad_helper` (`utils.py:791-805`): all padding tokens are appended to
the *last* group, as an extra 4th element of that group's list. -/
def pad_helper (segs : List FimSegs) (diffAbs : Nat)
    (fim_pad_tok_id : Int) : List FimSegs :=
  segs.set (segs.length - 1)
    { segs.getD (segs.length - 1) default with
      pad := List.replicate diffAbs fim_pad_tok_id }

/-- `truncate_or_pad_helper` (`utils.py:808-836`): truncate when
`diff ≥ 0`, pad otherwise; the (possibly non-terminating) truncation is
the fuel-complete `truncate_helper`. -/
def truncate_or_pad_helper (pairs : List (FimSegs × FimFormat))
    (diff : Int) (fim_pad_tok_id : Int) :
    Option (List (FimSegs × FimFormat)) :=
  let segments := pairs.map Prod.fst
  let fim_formats := pairs.map Prod.snd
  if 0 ≤ diff then
    (truncate_helper segments diff.toNat).map (fun s => s.zip fim_formats)
  else some ((pad_helper segments (-diff).toNat fim_pad_tok_id).zip
    fim_formats)

/-- The per-group concatenation of `format_fim` (`utils.py:691-730`),
including the optional 4th (padding) element appended at the end. -/
def fimConcat (suffix_tok_id prefix_tok_id middle_tok_id eos_tok_id : Int)
    (opt_bos_tok_id : List Int) (p : FimSegs × FimFormat) : List Int :=
  match p.2 with
  | .PSM => opt_bos_tok_id ++ [prefix_tok_id] ++ p.1.pre ++ [suffix_tok_id]
      ++ p.1.suf ++ [middle_tok_id] ++ p.1.mid ++ [eos_tok_id] ++ p.1.pad
  | .SPM => opt_bos_tok_id ++ [prefix_tok_id, suffix_tok_id] ++ p.1.suf
      ++ [middle_tok_id] ++ p.1.pre ++ p.1.mid ++ [eos_tok_id] ++ p.1.pad
  | .AR => opt_bos_tok_id ++ p.1.pre ++ p.1.mid ++ p.1.suf
      ++ [eos_tok_id] ++ p.1.pad

/-- `format_fim` (`utils.py:649-737`): concatenate all groups, split into
`sample = all[:-1]` and `label = all[1:]`, and build the mask as ones
followed by zeros over the padded tail. -/
def format_fim (pairs : List (FimSegs × FimFormat)) (max_seq_len : Nat)
    (suffix_tok_id prefix_tok_id middle_tok_id eos_tok_id : Int)
    (opt_bos_tok_id : List Int) : List Int × List Int × List Int :=
  let all := (pairs.map (fimConcat suffix_tok_id prefix_tok_id
    middle_tok_id eos_tok_id opt_bos_tok_id)).flatten
  let total_padding_len := (pairs.map (fun p => p.1.pad.length)).sum
  let label := all.drop 1
  let samp := all.dropLast
  let mask := List.replicate (max_seq_len - total_padding_len) (1 : Int) ++
    List.replicate total_padding_len (0 : Int)
  (samp, mask, label)

/-- The per-format token-count constant of `fim`'s `add_constant`
computation (`utils.py:927-934`): 1 for AR, 4 for PSM/SPM. -/
def fmtConstN : FimFormat → Nat
  | .AR => 1
  | _ => 4

/-- `add_constant` (`utils.py:927-934`): `-1` for the input/label shift,
plus per pair the special-token count and (when a BOS list is configured)
one BOS. -/
def fimAddConstant (opt_bos_tok_id : List Int)
    (pairs : List (FimSegs × FimFormat)) : Int :=
  -1 + (pairs.map (fun p => (fmtConstN p.2 : Int) +
    (if opt_bos_tok_id ≠ [] then 1 else 0))).sum

/-- The length-reconciliation difference `diff` of `fim`
(`utils.py:921-935`). -/
def fimDiff (oracles : Nat → FimOracle) (tok : FimTok)
    (eos_tok_id : Int) (opt_bos_tok_id : List Int)
    (sample : List Int) : Int :=
  (totalTokens ((fimSplitChunks oracles tok eos_tok_id sample).map
    Prod.fst) : Int) +
    fimAddConstant opt_bos_tok_id
      (fimSplitChunks oracles tok eos_tok_id sample) -
    sample.length

/-- The distinct fatal outcomes of `fim`: a non-terminating truncation,
and the two assertions at `utils.py:952-971`. -/
inductive FimError where
  | noTermination
  | lengthAssert
  | eosAssert
deriving Repr, DecidableEq

/-- `fim` (`utils.py:839-974`): split at eos boundaries, chunk each kept
sub-document (randomness via the oracle stream), reconcile the token
budget by truncation or padding, format, and check the output shapes and
the trailing EOS. -/
def fim (oracles : Nat → FimOracle) (tok : FimTok)
    (suffix_tok_id prefix_tok_id middle_tok_id fim_pad_tok_id
      eos_tok_id : Int) (opt_bos_tok_id : List Int) (sample : List Int) :
    Except FimError (List Int × List Int × List Int) :=
  let max_seq_len := sample.length
  let pairs := fimSplitChunks oracles tok eos_tok_id sample
  let diff := fimDiff oracles tok eos_tok_id opt_bos_tok_id sample
  match truncate_or_pad_helper pairs diff fim_pad_tok_id with
  | none => .error .noTermination
  | some pairs2 =>
      let out := format_fim pairs2 max_seq_len suffix_tok_id prefix_tok_id
        middle_tok_id eos_tok_id opt_bos_tok_id
      if out.1.length = max_seq_len ∧ out.2.1.length = max_seq_len ∧
          out.2.2.length = max_seq_len then
        if out.2.2.getLastD (eos_tok_id + 1) = eos_tok_id then .ok out
        else .error .eosAssert
      else .error .lengthAssert

/-- Claim C1 counterexample: the sample `[eos, eos]` (every valid
`fim_rate` admits the all-AR draw; at `fim_rate = 0` it is certain).
Re-encoding shrinks the budget (`diff = -2 < 0`), the two padding tokens
land *after* the final EOS, so `labels[L-1]` is the pad id and `fim`
raises its EOS `AssertionError` instead of returning. -/
theorem fim_counterexample_padding_breaks_eos :
    fim (fun _ => ⟨false, 0, 0, false⟩) ⟨fun _ => [], fun _ => []⟩
      1 2 3 9 0 [] [0, 0] = Except.error FimError.eosAssert := by
  rfl

theorem fimConcat_length (st pt mt et : Int) (bos : List Int)
    (p : FimSegs × FimFormat) :
    (fimConcat st pt mt et bos p).length =
      bos.length + segTokens p.1 + fmtConstN p.2 + p.1.pad.length := by
  rcases p with ⟨g, fmt⟩
  cases fmt <;>
    simp [fimConcat, fmtConstN, segTokens, List.length_append] <;> omega

theorem flatten_fimConcat_length (st pt mt et : Int) (bos : List Int)
    (pairs : List (FimSegs × FimFormat)) :
    ((pairs.map (fimConcat st pt mt et bos)).flatten).length =
      bos.length * pairs.length + totalTokens (pairs.map Prod.fst) +
      (pairs.map (fun p => fmtConstN p.2)).sum +
      (pairs.map (fun p => p.1.pad.length)).sum := by
  induction pairs with
  | nil => simp [totalTokens]
  | cons p t ih =>
      rw [List.map_cons, List.flatten_cons, List.length_append, ih,
        fimConcat_length, List.map_cons, totalTokens_cons,
        List.map_cons, List.sum_cons, List.map_cons, List.sum_cons,
        List.length_cons]
      have hmul : bos.length * (t.length + 1) =
          bos.length * t.length + bos.length := by ring
      omega

theorem sum_map_add_const (c : Int) (pairs : List (FimSegs × FimFormat)) :
    (pairs.map (fun p => (fmtConstN p.2 : Int) + c)).sum =
      ((pairs.map (fun p => fmtConstN p.2)).sum : Nat) + pairs.length * c := by
  induction pairs with
  | nil => simp
  | cons p t ih =>
      rw [List.map_cons, List.sum_cons, ih, List.map_cons, List.sum_cons,
        List.length_cons]
      push_cast
      ring

theorem chunk_pad (o : FimOracle) (tok : FimTok) (sample : List Int) :
    (chunk o tok sample).1.pad = [] := by
  unfold chunk
  split <;> rfl

theorem fimSplitChunks_pads (oracles : Nat → FimOracle) (tok : FimTok)
    (eos : Int) (sample : List Int) :
    ∀ p ∈ fimSplitChunks oracles tok eos sample, p.1.pad = [] := by
  rw [fimSplitChunks_eq_keptSubDocs_aux]
  intro p hp
  rw [List.mapIdx_eq_enum_map] at hp
  rcases List.mem_map.mp hp with ⟨⟨i, a⟩, _, heq⟩
  rw [← heq]
  exact chunk_pad _ _ _

theorem fimSplitChunks_ne_nil (oracles : Nat → FimOracle) (tok : FimTok)
    (eos : Int) (sample : List Int) :
    fimSplitChunks oracles tok eos sample ≠ [] := by
  unfold fimSplitChunks
  split
  · simp
  · simp

theorem drop_one_getLast (l : List Int) (h : 2 ≤ l.length) :
    (l.drop 1).getLast? = l.getLast? := by
  match l, h with
  | x :: y :: t, _ =>
      rw [show (x :: y :: t).drop 1 = y :: t from rfl,
        List.getLast?_cons_cons]

theorem fimConcat_ends_eos (st pt mt et : Int) (bos : List Int)
    (p : FimSegs × FimFormat) (hpad : p.1.pad = []) :
    ∃ q, fimConcat st pt mt et bos p = q ++ [et] := by
  rcases p with ⟨g, fmt⟩
  simp only [] at hpad
  cases fmt
  · exact ⟨bos ++ [pt] ++ g.pre ++ [st] ++ g.suf ++ [mt] ++ g.mid,
      by simp [fimConcat, hpad]⟩
  · exact ⟨bos ++ [pt, st] ++ g.suf ++ [mt] ++ g.pre ++ g.mid,
      by simp [fimConcat, hpad]⟩
  · exact ⟨bos ++ g.pre ++ g.mid ++ g.suf,
      by simp [fimConcat, hpad]⟩

theorem SegRel_pad (orig g : FimSegs) (h : SegRel orig g) :
    g.pad = orig.pad := by
  unfold SegRel at h
  exact h.2.2.2.1

theorem bos_length_flag (bos : List Int) (h : bos.length ≤ 1) :
    bos.length = (if bos ≠ [] then 1 else 0) := by
  cases bos with
  | nil => simp
  | cons x xs =>
      rw [if_pos (by simp)]
      rw [List.length_cons] at h ⊢
      omega

/-- Claim C1 (corrected): for every sample of length `L`, every outcome of
the valid-`fim_rate` randomness (the oracle stream), and every tokenizer,
*provided* the reconciliation needs no padding (`diff ≥ 0`) and the
truncation terminates (`diff` at most the total re-encoded token count),
`fim` returns three arrays of length exactly `L` whose final label is the
eos id.  (As stated the claim is false: when re-encoding shrinks the
budget, the padding is appended after the final EOS, `labels[L-1]` is the
pad id, and `fim` raises an `AssertionError` instead of returning — see
the counterexample.) -/
theorem fim_returns_budget_and_eos (oracles : Nat → FimOracle)
    (tok : FimTok)
    (suffix_tok_id prefix_tok_id middle_tok_id fim_pad_tok_id
      eos_tok_id : Int)
    (opt_bos_tok_id : List Int) (sample : List Int)
    (hbos : opt_bos_tok_id.length ≤ 1)
    (hL : 0 < sample.length)
    (hdiff : 0 ≤ fimDiff oracles tok eos_tok_id opt_bos_tok_id sample)
    (hterm : (fimDiff oracles tok eos_tok_id opt_bos_tok_id sample).toNat ≤
      totalTokens ((fimSplitChunks oracles tok eos_tok_id sample).map
        Prod.fst)) :
    ∃ inputs mask labels,
      fim oracles tok suffix_tok_id prefix_tok_id middle_tok_id
        fim_pad_tok_id eos_tok_id opt_bos_tok_id sample =
        Except.ok (inputs, mask, labels) ∧
      inputs.length = sample.length ∧ mask.length = sample.length ∧
      labels.length = sample.length ∧ labels.getLast? = some eos_tok_id := by
  set pairs := fimSplitChunks oracles tok eos_tok_id sample with hpairsdef
  set segs := pairs.map Prod.fst with hsegsdef
  set fmts := pairs.map Prod.snd with hfmtsdef
  set dN := (fimDiff oracles tok eos_tok_id opt_bos_tok_id sample).toNat
    with hdNdef
  have hnp : pairs ≠ [] := by
    rw [hpairsdef]
    exact fimSplitChunks_ne_nil oracles tok eos_tok_id sample
  have hps : segs.length = pairs.length := by
    rw [hsegsdef, List.length_map]
  have hnsegs : 0 < segs.length := by
    rw [hps]
    exact List.length_pos.mpr hnp
  have hsome := truncate_helper_isSome segs dN hterm
  rcases Option.isSome_iff_exists.mp hsome with ⟨r, hr⟩
  have hrun : truncRun (3 * segs.length * (dN + 1)) (truncInit segs dN) =
      some r := hr
  have htot : totalTokens r + dN = totalTokens segs := by
    have := truncRun_total _ _ _ hrun
    simpa [truncInit] using this
  have hrel := truncRun_rel _ _ r segs (StInv_truncInit segs dN hnsegs)
    (TruncRel_truncInit segs dN) hrun
  have hrlen : r.length = segs.length := hrel.1
  have hpadsSegs : ∀ k, k < segs.length → (segs.getD k default).pad = [] := by
    intro k hk
    have hk' : k < pairs.length := by omega
    have hmap : segs.getD k default = (pairs.get ⟨k, hk'⟩).1 := by
      rw [hsegsdef, List.getD_eq_getElem _ _ (by rw [List.length_map]; omega)]
      rw [List.getElem_map]
      rfl
    rw [hmap]
    exact fimSplitChunks_pads oracles tok eos_tok_id sample _
      (List.get_mem _ _ _)
  have hpadsRmem : ∀ g ∈ r, g.pad = [] := by
    intro g hg
    rcases List.mem_iff_getElem.mp hg with ⟨k, hk, hget⟩
    have hpadeq := SegRel_pad _ _ (hrel.2 k (by omega))
    have hgd : r.getD k default = g := by
      rw [List.getD_eq_getElem r default hk, hget]
    rw [← hgd, hpadeq]
    exact hpadsSegs k (by omega)
  have hlen_fmts : fmts.length = segs.length := by
    rw [hsegsdef, hfmtsdef, List.length_map, List.length_map]
  have hfst : (r.zip fmts).map Prod.fst = r :=
    List.map_fst_zip r fmts (by omega)
  have hsnd : (r.zip fmts).map Prod.snd = fmts :=
    List.map_snd_zip r fmts (by omega)
  have hzlen : (r.zip fmts).length = pairs.length := by
    rw [List.length_zip]
    omega
  have hpadsum : ((r.zip fmts).map (fun p => p.1.pad.length)).sum = 0 := by
    apply List.sum_eq_zero
    intro x hx
    rcases List.mem_map.mp hx with ⟨p, hp, rfl⟩
    obtain ⟨a, b⟩ := p
    rw [hpadsRmem a (List.mem_zip hp).1]
    rfl
  have hfmtsum : ((r.zip fmts).map (fun p => fmtConstN p.2)).sum =
      (pairs.map (fun p => fmtConstN p.2)).sum := by
    have h1 : ((r.zip fmts).map (fun p => fmtConstN p.2)) =
        fmts.map fmtConstN := by
      rw [show (fun (p : FimSegs × FimFormat) => fmtConstN p.2) =
        (fmtConstN ∘ Prod.snd) from rfl, ← List.map_map, hsnd]
    rw [h1, hfmtsdef, List.map_map]
    rfl
  have htt : totalTokens ((r.zip fmts).map Prod.fst) = totalTokens r := by
    rw [hfst]
  have hallLen : (((r.zip fmts).map (fimConcat suffix_tok_id prefix_tok_id
      middle_tok_id eos_tok_id opt_bos_tok_id)).flatten).length =
      sample.length + 1 := by
    rw [flatten_fimConcat_length, htt, hpadsum, hfmtsum, hzlen]
    have haddc : fimAddConstant opt_bos_tok_id pairs + 1 =
        ((pairs.map (fun p => fmtConstN p.2)).sum : Int) +
          pairs.length * (if opt_bos_tok_id ≠ [] then 1 else 0) := by
      unfold fimAddConstant
      rw [sum_map_add_const]
      push_cast
      ring
    have hflagN : opt_bos_tok_id.length =
        (if opt_bos_tok_id ≠ [] then 1 else 0) := bos_length_flag _ hbos
    have hflagI : ((if opt_bos_tok_id ≠ [] then (1 : Int) else 0)) =
        (opt_bos_tok_id.length : Int) := by
      rw [hflagN]
      split <;> simp
    rw [hflagI] at haddc
    have hdiffeq : fimDiff oracles tok eos_tok_id opt_bos_tok_id sample =
        (totalTokens segs : Int) +
          fimAddConstant opt_bos_tok_id pairs - sample.length := by
      rw [fimDiff]
    have hdI : ((dN : Nat) : Int) =
        fimDiff oracles tok eos_tok_id opt_bos_tok_id sample := by
      rw [hdNdef]
      omega
    have hmulN : ((opt_bos_tok_id.length * pairs.length : Nat) : Int) =
        (pairs.length : Int) * (opt_bos_tok_id.length : Int) := by
      push_cast
      ring
    omega
  have hne2 : (r.zip fmts) ≠ [] := by
    apply List.length_pos.mp
    rw [hzlen]
    exact List.length_pos.mpr hnp
  have hmapne : ((r.zip fmts).map (fimConcat suffix_tok_id prefix_tok_id
      middle_tok_id eos_tok_id opt_bos_tok_id)) ≠ [] := by
    intro hh
    exact hne2 (List.map_eq_nil.mp hh)
  have hlastq : ∃ q, (((r.zip fmts).map (fimConcat suffix_tok_id
      prefix_tok_id middle_tok_id eos_tok_id opt_bos_tok_id)).flatten) =
      q ++ [eos_tok_id] := by
    have hdecomp := (List.dropLast_append_getLast hmapne).symm
    have hlastmem := List.getLast_mem hmapne
    rcases List.mem_map.mp hlastmem with ⟨p, hp, hpe⟩
    obtain ⟨a, b⟩ := p
    have hpad : (a, b).1.pad = [] := hpadsRmem a (List.mem_zip hp).1
    rcases fimConcat_ends_eos suffix_tok_id prefix_tok_id middle_tok_id
      eos_tok_id opt_bos_tok_id (a, b) hpad with ⟨q0, hq0⟩
    refine ⟨(((r.zip fmts).map (fimConcat suffix_tok_id prefix_tok_id
      middle_tok_id eos_tok_id opt_bos_tok_id)).dropLast).flatten ++ q0, ?_⟩
    conv_lhs => rw [hdecomp]
    rw [List.flatten_append, ← hpe, hq0]
    simp
  rcases hlastq with ⟨q, hq⟩
  have htop : truncate_or_pad_helper pairs
      (fimDiff oracles tok eos_tok_id opt_bos_tok_id sample)
      fim_pad_tok_id = some (r.zip fmts) := by
    unfold truncate_or_pad_helper
    rw [if_pos hdiff]
    show (truncate_helper segs dN).map (fun s => s.zip fmts) = _
    rw [hr]
    rfl
  have hfimeq : fim oracles tok suffix_tok_id prefix_tok_id middle_tok_id
      fim_pad_tok_id eos_tok_id opt_bos_tok_id sample =
      (if (format_fim (r.zip fmts) sample.length suffix_tok_id
            prefix_tok_id middle_tok_id eos_tok_id opt_bos_tok_id).1.length
            = sample.length ∧
          (format_fim (r.zip fmts) sample.length suffix_tok_id
            prefix_tok_id middle_tok_id eos_tok_id
            opt_bos_tok_id).2.1.length = sample.length ∧
          (format_fim (r.zip fmts) sample.length suffix_tok_id
            prefix_tok_id middle_tok_id eos_tok_id
            opt_bos_tok_id).2.2.length = sample.length then
        (if (format_fim (r.zip fmts) sample.length suffix_tok_id
              prefix_tok_id middle_tok_id eos_tok_id
              opt_bos_tok_id).2.2.getLastD (eos_tok_id + 1) = eos_tok_id
          then Except.ok (format_fim (r.zip fmts) sample.length
            suffix_tok_id prefix_tok_id middle_tok_id eos_tok_id
            opt_bos_tok_id)
          else Except.error FimError.eosAssert)
      else Except.error FimError.lengthAssert) := by
    unfold fim
    simp only []
    rw [htop]
  have hout1 : (format_fim (r.zip fmts) sample.length suffix_tok_id
      prefix_tok_id middle_tok_id eos_tok_id opt_bos_tok_id).1.length =
      sample.length := by
    show ((((r.zip fmts).map (fimConcat suffix_tok_id prefix_tok_id
      middle_tok_id eos_tok_id opt_bos_tok_id)).flatten).dropLast).length = _
    rw [List.length_dropLast, hallLen]
    omega
  have hout2 : (format_fim (r.zip fmts) sample.length suffix_tok_id
      prefix_tok_id middle_tok_id eos_tok_id opt_bos_tok_id).2.1.length =
      sample.length := by
    show (List.replicate (sample.length -
        ((r.zip fmts).map (fun p => p.1.pad.length)).sum) (1 : Int) ++
      List.replicate (((r.zip fmts).map (fun p => p.1.pad.length)).sum)
        (0 : Int)).length = _
    rw [hpadsum]
    simp
  have hout3 : (format_fim (r.zip fmts) sample.length suffix_tok_id
      prefix_tok_id middle_tok_id eos_tok_id opt_bos_tok_id).2.2.length =
      sample.length := by
    show ((((r.zip fmts).map (fimConcat suffix_tok_id prefix_tok_id
      middle_tok_id eos_tok_id opt_bos_tok_id)).flatten).drop 1).length = _
    rw [List.length_drop, hallLen]
    omega
  have heoslast : (format_fim (r.zip fmts) sample.length suffix_tok_id
      prefix_tok_id middle_tok_id eos_tok_id
      opt_bos_tok_id).2.2.getLast? = some eos_tok_id := by
    show ((((r.zip fmts).map (fimConcat suffix_tok_id prefix_tok_id
      middle_tok_id eos_tok_id opt_bos_tok_id)).flatten).drop 1).getLast? =
      _
    rw [drop_one_getLast _ (by rw [hallLen]; omega), hq,
      List.getLast?_concat]
  have hgetLastD : (format_fim (r.zip fmts) sample.length suffix_tok_id
      prefix_tok_id middle_tok_id eos_tok_id
      opt_bos_tok_id).2.2.getLastD (eos_tok_id + 1) = eos_tok_id := by
    rw [List.getLastD_eq_getLast?, heoslast]
    rfl
  rw [hfimeq, if_pos ⟨hout1, hout2, hout3⟩, if_pos hgetLastD]
  exact ⟨_, _, _, rfl, hout1, hout2, hout3, heoslast⟩

theorem fim_returns_budget_and_eos_witness :
    ∃ inputs mask labels,
      fim (fun _ => ⟨false, 0, 0, false⟩) ⟨fun _ => [], fun _ => []⟩
        1 2 3 9 0 [] [5] = Except.ok (inputs, mask, labels) ∧
      inputs.length = 1 ∧ mask.length = 1 ∧ labels.length = 1 ∧
      labels.getLast? = some 0 := by
  have h := fim_returns_budget_and_eos (fun _ => ⟨false, 0, 0, false⟩)
    ⟨fun _ => [], fun _ => []⟩ 1 2 3 9 0 [] [5]
    (by decide) (by decide) (by decide) (by decide)
  simpa using h
